import Mathlib

/-
Verification development for the lock-inference dataflow engine
(`src/dataflow/pass.rs`).  The definitions below are a shallow embedding of
the engine: the data model (access paths, mutex identities, bitsets of held
mutexes), the fact-collector output, the mutex-universe builder
(`possible_mutexes`), the thread-reachability filter (`thread_functions`),
the per-procedure summary computation, the interprocedural propagation
fixed point, and the datum-to-mutex classifier of `check_crate_post`.

Machinery of the repository that is not part of the provided sources
(the `ExprPath` utilities of `util.rs`, the intraprocedural analyses of
`intra.rs`, the graph algorithms of `graph.rs`, and the `FunctionSummary`
container) is modelled from the specification; every such definition is
marked `Modelled from the spec:` in its doc comment.  Everything else is a
direct translation of `pass.rs`.
-/

set_option autoImplicit false

namespace CMRM

/-- Modelled from the spec: a projection of an access path is either a named
field or an integer-index expression (kept syntactically, as a string);
`ExprPathProj` of `util.rs` is not among the provided sources. -/
inductive Proj where
  | fieldP (f : String)
  | indexP (i : String)
  deriving DecidableEq, Repr

/-- Modelled from the spec: an access path denotes a memory location as a
base name plus an ordered list of projections (`ExprPath` of `util.rs` is
not among the provided sources). -/
structure ExprPath where
  base : String
  projections : List Proj
  deriving DecidableEq, Repr

namespace ExprPath

/-- Modelled from the spec: a path with no projections is a variable. -/
def is_variable (p : ExprPath) : Bool := p.projections.isEmpty

/-- Modelled from the spec: a struct-field access path is one that ends in a
named-field projection (`is_struct` of `util.rs`). -/
def is_struct (p : ExprPath) : Bool :=
  match p.projections.getLast? with
  | some (Proj.fieldP _) => true
  | _ => false

/-- Modelled from the spec: pop the last projection, returning it together
with the shortened path (`ExprPath::pop`). -/
def popLast (p : ExprPath) : Option (Proj × ExprPath) :=
  match p.projections.getLast? with
  | none => none
  | some pr => some (pr, ⟨p.base, p.projections.dropLast⟩)

/-- Modelled from the spec: drop a prefix from a projection list, returning
the remaining suffix when the first list really is a prefix. -/
def dropPre : List Proj → List Proj → Option (List Proj)
  | rest, [] => some rest
  | [], _ :: _ => none
  | q :: rest, q' :: pre => if q = q' then dropPre rest pre else none

/-- Modelled from the spec: prefix-strip.  Given a prefix path, yield the
suffix that, when appended to the prefix, reconstructs the original path;
the first projection of the suffix (a named field) becomes the base of the
returned path (`ExprPath::strip_prefix`). -/
def stripPre (m p : ExprPath) : Option ExprPath :=
  if m.base = p.base then
    match dropPre m.projections p.projections with
    | some (Proj.fieldP f :: rest) => some ⟨f, rest⟩
    | _ => none
  else none

/-- Modelled from the spec: re-attach a base in front of a stripped suffix,
turning the suffix base back into a field projection (`ExprPath::add_base`). -/
def addBase (m : ExprPath) (b : String) : ExprPath :=
  ⟨b, Proj.fieldP m.base :: m.projections⟩

/-- Modelled from the spec: base-rewrite, replacing the base and keeping the
projections (used by the universe builder, `m.base = arg`). -/
def rebase (m : ExprPath) (b : String) : ExprPath := ⟨b, m.projections⟩

end ExprPath

/-- A call argument record: its textual form, its pointee-type name and its
access path when derivable (the `Arg` consumed by `pass.rs`). -/
structure Arg where
  expr : String
  typ : String
  path : Option ExprPath
  deriving DecidableEq, Repr

/-- Modelled from the spec: the flow-facts-bearing events of one procedure
in control-flow order.  The provided sources work on the front-end control
flow graph with span-based access attribution; per the spec this shallow
embedding ties accesses and calls to statements directly and uses a
straight-line sequence of events. -/
inductive Op where
  | lockOp (m : ExprPath)
  | unlockOp (m : ExprPath)
  | callOp (f : ℕ) (args : List Arg)
  | accessOp (p : ExprPath) (w : Bool)
  deriving DecidableEq, Repr

/-- The fact-collector output consumed by `check_crate_post`: the
user-defined procedures with their bodies, parameter lists (name,
pointee-type name), path types, struct layouts carrying a mutex field,
thread entries and global statics. -/
structure Facts where
  functions : List ℕ
  body : ℕ → List Op
  params : ℕ → List (String × String)
  pathType : ℕ → ExprPath → String
  mutexesPerStruct : String → Option (List String)
  threadEntries : List ℕ
  globs : List String

namespace Facts

/-- The mutex expressions registered for one procedure: the operands of its
lock and unlock operations (`self.mutexes`). -/
def mutexesOf (F : Facts) (f : ℕ) : List ExprPath :=
  ((F.body f).filterMap fun op =>
    match op with
    | Op.lockOp m => some m
    | Op.unlockOp m => some m
    | _ => none).dedup

/-- The user-defined callees of one procedure: the call-graph edges after
removing library functions (`self.call_graph` after `retain`). -/
def calleesOf (F : Facts) (f : ℕ) : List ℕ :=
  ((F.body f).filterMap fun op =>
    match op with
    | Op.callOp g _ => if g ∈ F.functions then some g else none
    | _ => none).dedup

/-- All argument records of all recorded calls (`self.calls` flattened). -/
def allArgs (F : Facts) : List Arg :=
  F.functions.flatMap fun f =>
    (F.body f).flatMap fun op =>
      match op with
      | Op.callOp _ args => args
      | _ => []

/-- The textual forms of all call arguments of a given pointee type
(`self.args_per_type`). -/
def argsPerType (F : Facts) (t : String) : List String :=
  ((F.allArgs).filterMap fun a => if a.typ = t then some a.expr else none).dedup

/-- The mutex universe (`GlobalPass::possible_mutexes`): all observed mutex
expressions, together with, for each parameter-relative mutex expression of
a procedure, the base-rewrites of its base to every recorded call argument
of the parameter's pointee type. -/
def possible_mutexes (F : Facts) : List ExprPath :=
  let observed := F.functions.flatMap fun f => F.mutexesOf f
  let subst := F.functions.flatMap fun f =>
    (F.mutexesOf f).flatMap fun m =>
      if m.is_variable then []
      else
        match (F.params f).find? (fun pr => pr.1 = m.base) with
        | none => []
        | some pr => (F.argsPerType pr.2).map fun a => m.rebase a
  (observed ++ subst).dedup

/-- The callee set of a procedure as a finite set. -/
def calleeFinset (F : Facts) (f : ℕ) : Finset ℕ := (F.calleesOf f).toFinset

/-- Modelled from the spec: one expansion step of call-graph reachability
(`transitive_closure` of `graph.rs` is not among the provided sources). -/
def stepReach (F : Facts) (s : Finset ℕ) : Finset ℕ :=
  s ∪ s.biUnion fun f => F.calleeFinset f

/-- Modelled from the spec: the procedures reachable from a root set in the
call graph, by iterating the expansion step. -/
def reachFrom (F : Facts) (roots : Finset ℕ) : Finset ℕ :=
  (F.stepReach)^[F.functions.length] roots

/-- The procedures transitively reachable from any thread-entry procedure,
together with the entries themselves; empty when the program spawns no
thread (`GlobalPass::thread_functions`). -/
def thread_functions (F : Facts) : List ℕ :=
  if F.threadEntries.isEmpty then []
  else
    (F.threadEntries ++
      F.functions.filter fun f =>
        decide (f ∈ F.reachFrom F.threadEntries.toFinset)).dedup

/-- Modelled from the spec: the call graph (restricted to user-defined
procedures) has a cycle exactly when some procedure can reach itself
through at least one call edge.  The provided sources assert, via the
strongly-connected-component condensation, that no such cycle exists. -/
def hasCycle (F : Facts) : Bool :=
  F.functions.any fun f => decide (f ∈ F.reachFrom (F.calleeFinset f))

/-- The procedures calling a given procedure (the inverse call graph used
to find the roots of the interprocedural fixed point). -/
def callersOf (F : Facts) (c : ℕ) : List ℕ :=
  F.functions.filter fun f => (F.calleesOf f).contains c

/-- One round of the post-order construction: append every not-yet-placed
procedure all of whose callees are already placed. -/
def poRound (F : Facts) (acc : List ℕ) : List ℕ :=
  acc ++ (F.functions.filter fun f =>
    !acc.contains f && (F.calleesOf f).all fun c => acc.contains c)

/-- Modelled from the spec: a post-order traversal of the call-graph
condensation (all components are singletons once the no-recursion assertion
has passed), listing callees before their callers (`post_order` of
`graph.rs` is not among the provided sources). -/
def postOrderList (F : Facts) : List ℕ :=
  (F.poRound)^[F.functions.length] []

end Facts

/-- The identity of a mutex expression: its position in the enumeration of
the universe (the expression-to-id map of `check_crate_post`). -/
def idOfOpt (uord : List ExprPath) (m : ExprPath) : Option ℕ :=
  uord.findIdx? (fun x => x = m)

/-- The identity of a mutex expression as a singleton bitset, empty when
the expression is not in the universe. -/
def idSet (uord : List ExprPath) (m : ExprPath) : Finset ℕ :=
  match idOfOpt uord m with
  | none => ∅
  | some i => {i}

/-- The mutex expressions denoted by a bitset of identities, in increasing
identity order (the `iv2mv` helper of `check_crate_post`). -/
def iv2mv (uord : List ExprPath) (s : Finset ℕ) : List ExprPath :=
  ((List.range uord.length).filter fun i => decide (i ∈ s)).filterMap uord.get?

/-- The function summary filled by the summary computer: entry, node and
return guard sets, per-callee propagation, per-access held sets, and the
`propagation_mutex` written once by the interprocedural fixed point. -/
structure FunctionSummary where
  entry_mutex : Finset ℕ
  node_mutex : Finset ℕ
  ret_mutex : Finset ℕ
  propagation : List (ℕ × Finset ℕ)
  access : List (ExprPath × Finset ℕ × Bool)
  propagation_mutex : Finset ℕ
  deriving DecidableEq

/-- Look up an already-computed summary (the `function_summary_map`). -/
def lookupSummary (summaries : List (ℕ × FunctionSummary)) (f : ℕ) :
    Option FunctionSummary :=
  (summaries.find? fun pr => pr.1 = f).map Prod.snd

/-- Modelled from the spec: the identity translation from callee naming to
caller naming (the inverse of the alias translator), rebasing a
parameter-relative path onto the actual argument's path; identities that do
not translate are kept unchanged (`intra.rs` is not among the provided
sources). -/
def invTransId (F : Facts) (uord : List ExprPath) (g : ℕ) (args : List Arg)
    (i : ℕ) : ℕ :=
  match uord.get? i with
  | none => i
  | some m =>
    if m.is_variable then i
    else
      match (F.params g).findIdx? (fun pr => pr.1 = m.base) with
      | none => i
      | some k =>
        match args.get? k with
        | none => i
        | some a =>
          match a.path with
          | none => i
          | some ap =>
            (idOfOpt uord ⟨ap.base, ap.projections ++ m.projections⟩).getD i

/-- Modelled from the spec: callee-to-caller translation of a whole guard
set. -/
def invTransSet (F : Facts) (uord : List ExprPath) (g : ℕ) (args : List Arg)
    (s : Finset ℕ) : Finset ℕ :=
  s.image (invTransId F uord g args)

/-- Modelled from the spec: the backward live-guards transfer of one event.
A lock of m removes m (it need not have been live before), an unlock of m
adds m (it must have been live); all other events are the identity
(`live_guards` of `intra.rs` is not among the provided sources). -/
def liveStep (uord : List ExprPath) (op : Op) (s : Finset ℕ) : Finset ℕ :=
  match op with
  | Op.lockOp m => s \ idSet uord m
  | Op.unlockOp m => s ∪ idSet uord m
  | _ => s

/-- Modelled from the spec: the live-guards result at procedure entry — the
guards the procedure assumes its caller already holds. -/
def liveEntry (uord : List ExprPath) (ops : List Op) : Finset ℕ :=
  ops.foldr (liveStep uord) ∅

/-- Modelled from the spec: the forward available-guards transfer of one
event.  A lock adds, an unlock removes; a call to a procedure with a
summary removes the guards the callee relinquishes and adds the guards it
establishes, translated from callee to caller naming; everything else is
the identity (`available_guards` of `intra.rs` is not among the provided
sources). -/
def availStep (F : Facts) (uord : List ExprPath)
    (summaries : List (ℕ × FunctionSummary)) (s : Finset ℕ) (op : Op) :
    Finset ℕ :=
  match op with
  | Op.lockOp m => s ∪ idSet uord m
  | Op.unlockOp m => s \ idSet uord m
  | Op.callOp g args =>
    match lookupSummary summaries g with
    | none => s
    | some sg =>
      let rel := sg.entry_mutex \ sg.ret_mutex
      let est := sg.ret_mutex \ sg.entry_mutex
      (s \ invTransSet F uord g args rel) ∪ invTransSet F uord g args est
  | Op.accessOp _ _ => s

/-- Modelled from the spec: the held set before each event, paired with the
event, scanning forward from the entry set. -/
def availScan (F : Facts) (uord : List ExprPath)
    (summaries : List (ℕ × FunctionSummary)) :
    Finset ℕ → List Op → List (Finset ℕ × Op)
  | _, [] => []
  | s, op :: rest =>
    (s, op) :: availScan F uord summaries (availStep F uord summaries s op) rest

/-- Modelled from the spec: the held set at the exit of the procedure (the
`ret` set). -/
def availFinal (F : Facts) (uord : List ExprPath)
    (summaries : List (ℕ × FunctionSummary)) (s : Finset ℕ)
    (ops : List Op) : Finset ℕ :=
  ops.foldl (availStep F uord summaries) s

/-- Find the first argument whose path is a prefix of the given mutex path,
returning its position and the stripped suffix (the `find_map` inside
`alias_id`). -/
def firstStrip (args : List Arg) (m : ExprPath) : Option (ℕ × ExprPath) :=
  match args with
  | [] => none
  | a :: rest =>
    match a.path.bind (fun ap => m.stripPre ap) with
    | some suffix => some (0, suffix)
    | none => (firstStrip rest m).map fun pr => (pr.1 + 1, pr.2)

/-- The alias translator of `check_crate_post` (`alias_id`): a variable
path keeps its identity; otherwise the path is matched against the first
actual argument whose path is a prefix, and the translated path
`param_k ++ suffix` is looked up in the universe.  `none` models the
panics of the source (`inv_mutexes.get(..).unwrap()`, `params[i]`, and
`mutexes.get(&m).unwrap()`). -/
def alias_id (F : Facts) (uord : List ExprPath) (g : ℕ) (args : List Arg)
    (i : ℕ) : Option ℕ :=
  match uord.get? i with
  | none => none
  | some m =>
    if m.is_variable then some i
    else
      match firstStrip args m with
      | none => some i
      | some (k, suffix) =>
        match (F.params g).get? k with
        | none => none
        | some pr => idOfOpt uord (suffix.addBase pr.1)

/-- Translate a whole held set across a call boundary with `alias_id`,
failing when any single translation fails. -/
def transHeld (F : Facts) (uord : List ExprPath) (g : ℕ) (args : List Arg)
    (s : Finset ℕ) : Option (Finset ℕ) :=
  ((List.range uord.length).filter fun i => decide (i ∈ s)).foldl
    (fun acc i => acc.bind fun t => (alias_id F uord g args i).map fun j => insert j t)
    (some ∅)

/-- Compute one procedure's summary, given the summaries of its callees:
`entry_mutex` from the live-guards analysis, `ret_mutex` from the
available-guards analysis, `node_mutex` as entry ∪ ret ∪ the held set
before every call, `propagation` as the translated held set before each
call to a user procedure, and `access` as the held set before each access
(`propagation_mutex` is filled later by the fixed point). -/
def computeSummary (F : Facts) (uord : List ExprPath)
    (summaries : List (ℕ × FunctionSummary)) (f : ℕ) :
    Option FunctionSummary :=
  let ops := F.body f
  let entry := liveEntry uord ops
  let scan := availScan F uord summaries entry ops
  let ret := availFinal F uord summaries entry ops
  let node := (scan.filterMap fun pr =>
    match pr.2 with
    | Op.callOp _ _ => some pr.1
    | _ => none).foldl (· ∪ ·) (entry ∪ ret)
  let propOpt : Option (List (ℕ × Finset ℕ)) :=
    (scan.filterMap fun pr =>
      match pr.2 with
      | Op.callOp g args =>
        if g ∈ F.functions then some (g, args, pr.1) else none
      | _ => none).mapM fun t =>
        (transHeld F uord t.1 t.2.1 t.2.2).map fun v => (t.1, v)
  let access := scan.filterMap fun pr =>
    match pr.2 with
    | Op.accessOp p w => some (p, pr.1, w)
    | _ => none
  propOpt.map fun prop =>
    { entry_mutex := entry
      node_mutex := node
      ret_mutex := ret
      propagation := prop
      access := access
      propagation_mutex := ∅ }

/-- Compute all summaries in post order of the call graph, so callees are
processed before their callers. -/
def computeSummaries (F : Facts) (uord : List ExprPath) :
    Option (List (ℕ × FunctionSummary)) :=
  (F.postOrderList).foldl
    (fun acc f => acc.bind fun l =>
      (computeSummary F uord l f).map fun s => l ++ [(f, s)])
    (some [])

/-- The abstract state of the interprocedural fixed point: one bitset per
procedure (`abs_states`). -/
abbrev AbsSt := List (ℕ × Finset ℕ)

/-- Read a procedure's abstract state. -/
def stGet (st : AbsSt) (f : ℕ) : Finset ℕ :=
  ((st.find? fun pr => pr.1 = f).map Prod.snd).getD ∅

/-- Overwrite a procedure's abstract state. -/
def stSet (st : AbsSt) (f : ℕ) (v : Finset ℕ) : AbsSt :=
  st.map fun pr => if pr.1 = f then (f, v) else pr

/-- Whether a procedure is a root of the interprocedural fixed point: no
incoming edge in the (condensed) call graph. -/
def isRoot (F : Facts) (c : ℕ) : Bool := (F.callersOf c).isEmpty

/-- Initialize the abstract states: roots get their own `entry_mutex`, all
other procedures the full universe. -/
def initAbs (F : Facts) (uord : List ExprPath)
    (summaries : List (ℕ × FunctionSummary)) : AbsSt :=
  (F.postOrderList).reverse.map fun f =>
    (f,
      if isRoot F f then
        ((lookupSummary summaries f).map FunctionSummary.entry_mutex).getD ∅
      else Finset.range uord.length)

/-- The translated propagation set recorded for the call edge f → c (the
`propagation.get(succ)` lookup of the fixed point; the summary stores one
set per callee). -/
def propGet (summaries : List (ℕ × FunctionSummary)) (f c : ℕ) :
    Option (Finset ℕ) :=
  (lookupSummary summaries f).bind fun s =>
    (s.propagation.find? fun pr => pr.1 = c).map Prod.snd

/-- The meet applied along one call edge: the callee's state is intersected
with the propagation set united with the caller's state. -/
def edgeUpdate (stF P old : Finset ℕ) : Finset ℕ := old ∩ (P ∪ stF)

/-- Process every call edge out of the popped procedure: update each
callee's state by `edgeUpdate` and enqueue the callee when its state
changed and it is not already on the work list. -/
def succFold (stF : Finset ℕ) (prop : ℕ → Option (Finset ℕ)) :
    List ℕ → List ℕ → AbsSt → Option (List ℕ × AbsSt)
  | [], wl, st => some (wl, st)
  | c :: cs, wl, st =>
    match prop c with
    | none => none
    | some P =>
      let old := stGet st c
      let nw := edgeUpdate stF P old
      let st' := stSet st c nw
      let wl' := if nw ≠ old ∧ c ∉ wl then wl ++ [c] else wl
      succFold stF prop cs wl' st'

/-- The monotone work-list loop of the interprocedural fixed point, with
explicit fuel (the source loop terminates by monotone descent over a finite
lattice). -/
def fixLoop (F : Facts) (summaries : List (ℕ × FunctionSummary)) :
    ℕ → List ℕ → AbsSt → Option AbsSt
  | 0, wl, st => if wl.isEmpty then some st else none
  | _ + 1, [], st => some st
  | fuel + 1, f :: rest, st =>
    (succFold (stGet st f) (propGet summaries f) (F.calleesOf f) rest st).bind
      fun pr => fixLoop F summaries fuel pr.1 pr.2

/-- Fuel sufficient for the work-list loop on its actual inputs. -/
def fixFuel (F : Facts) (uord : List ExprPath) : ℕ :=
  (F.functions.length + 1) * (uord.length + 2) + F.functions.length + 1

/-- Post-processing after the fixed point: check the asserted invariant
`abs_state[f] ⊇ entry_mutex[f]` (aborting when it fails, as the source
assertion does) and write `propagation_mutex[f] = abs_state[f] \
entry_mutex[f]` into each summary. -/
def postProcess : List (ℕ × FunctionSummary) → AbsSt →
    Option (List (ℕ × FunctionSummary))
  | [], _ => some []
  | pr :: rest, st =>
    if pr.2.entry_mutex ⊆ stGet st pr.1 then
      (postProcess rest st).map fun l =>
        (pr.1, { pr.2 with
          propagation_mutex := stGet st pr.1 \ pr.2.entry_mutex }) :: l
    else none

/-- Collect the keys of an association list in first-appearance order (the
iteration over a map grouping). -/
def keysOf {κ α : Type} [DecidableEq κ] (l : List (κ × α)) : List κ :=
  (l.map Prod.fst).dedup

/-- Group an association list by key, keeping per-key insertion order. -/
def groupByKey {κ α : Type} [DecidableEq κ] (l : List (κ × α)) :
    List (κ × List α) :=
  (keysOf l).map fun k =>
    (k, l.filterMap fun pr => if pr.1 = k then some pr.2 else none)

/-- The thread filter of the classifier: when the thread-reachable set is
non-empty, keep only accesses whose enclosing procedure belongs to it;
otherwise keep everything. -/
def threadRetain {α : Type} (tf : List ℕ) (encl : α → ℕ) (l : List α) :
    List α :=
  if tf.isEmpty then l else l.filter fun a => tf.contains (encl a)

/-- Intersect a family of held sets, starting from the first (the `reduce`
of the classifier). -/
def interFold : List (Finset ℕ) → Finset ℕ
  | [] => ∅
  | v :: vs => vs.foldl (· ∩ ·) v

/-- Intersect a family of suffix lists, starting from the first (the
`reduce` with `HashSet::intersection` of the struct classifier). -/
def listInterFold : List (List ExprPath) → List ExprPath
  | [] => []
  | l :: ls => ls.foldl (fun a b => a.filter fun m => b.contains m) l

/-- The global-variable accesses of all summaries, each held set augmented
with the enclosing procedure's `propagation_mutex` (the classification loop
of `check_crate_post`). -/
def collectGlobalAccesses (summaries : List (ℕ × FunctionSummary)) :
    List (ExprPath × (ℕ × Finset ℕ × Bool)) :=
  summaries.flatMap fun pr =>
    pr.2.access.filterMap fun acc =>
      if acc.1.is_struct then none
      else some (acc.1, (pr.1, acc.2.1 ∪ pr.2.propagation_mutex, acc.2.2))

/-- The struct-field accesses of all summaries, each held set augmented
with the enclosing procedure's `propagation_mutex`. -/
def collectStructAccesses (summaries : List (ℕ × FunctionSummary)) :
    List (ExprPath × ℕ × Finset ℕ × Bool) :=
  summaries.flatMap fun pr =>
    pr.2.access.filterMap fun acc =>
      if acc.1.is_struct then
        some (acc.1, pr.1, acc.2.1 ∪ pr.2.propagation_mutex, acc.2.2)
      else none

/-- The scalar tie-break: retain only candidate guards that are variable
paths and pop the last survivor (`mutexes.retain(is_variable)` followed by
`mutexes.pop()`). -/
def scalarPick (cands : List ExprPath) : Option ExprPath :=
  (cands.filter fun m => m.is_variable).getLast?

/-- The array tie-break: retain only candidate guards whose own leading
projection is the same index expression as the datum's, and pop the last
survivor. -/
def arrayPick (i : String) (cands : List ExprPath) : Option ExprPath :=
  (cands.filter fun m =>
    match m.projections.head? with
    | some (Proj.indexP j) => decide (j = i)
    | _ => false).getLast?

/-- The candidate guards of one global datum after the thread filter: the
mutexes held at every one of its surviving accesses, in identity order. -/
def groupSurvivors (tf : List ℕ) (uord : List ExprPath)
    (accs0 : List (ℕ × Finset ℕ × Bool)) : List ExprPath :=
  iv2mv uord
    (interFold ((threadRetain tf (fun a => a.1) accs0).map fun a => a.2.1))

/-- Process one global-variable datum: thread filter, read-only skip,
intersection of all held sets, and the shape-specific tie-break (leading
index must match for arrays, the guard must be a variable path for
scalars); the returned flag distinguishes the array map from the scalar
map. -/
def processGlobalGroup (tf : List ℕ) (uord : List ExprPath) (p : ExprPath)
    (accs0 : List (ℕ × Finset ℕ × Bool)) : Option (Bool × String × String) :=
  let accs := threadRetain tf (fun a => a.1) accs0
  if accs.isEmpty then none
  else if accs.all (fun a => !a.2.2) then none
  else if (groupSurvivors tf uord accs0).isEmpty then none
  else
    match p.projections.head? with
    | some (Proj.indexP i) =>
      (arrayPick i (groupSurvivors tf uord accs0)).map fun m =>
        (true, p.base, m.base)
    | _ =>
      (scalarPick (groupSurvivors tf uord accs0)).map fun m =>
        (false, p.base, m.base)

/-- The upward walk of the struct classifier, with fuel equal to the number
of projections: pop the last projection (an index projection discards the
access), stop at the first prefix whose type carries a mutex field. -/
def walkAux (F : Facts) (f : ℕ) : ℕ → ExprPath → Option (String × ExprPath × String)
  | 0, _ => none
  | n + 1, p =>
    match p.popLast with
    | none => none
    | some (Proj.indexP _, _) => none
    | some (Proj.fieldP fl, p') =>
      if (F.mutexesPerStruct (F.pathType f p')).isSome then
        some (F.pathType f p', p', fl)
      else walkAux F f n p'

/-- Find the longest prefix of a struct access path whose type has a mutex
field, returning the type, the prefix and the popped field name (the
`loop` of the struct classifier). -/
def structWalk (F : Facts) (f : ℕ) (p : ExprPath) :
    Option (String × ExprPath × String) :=
  walkAux F f p.projections.length p

/-- Tag every struct access with its (struct type, field) bucket key, as
computed by the upward walk; accesses on which the walk fails are silently
discarded. -/
def structTagged (F : Facts) (summaries : List (ℕ × FunctionSummary)) :
    List ((String × String) × (ℕ × ExprPath × Finset ℕ × Bool)) :=
  (collectStructAccesses summaries).filterMap fun t =>
    (structWalk F t.2.1 t.1).map fun w =>
      ((w.1, w.2.2), (t.2.1, w.2.1, t.2.2.1, t.2.2.2))

/-- The held suffixes of one struct access: every held mutex whose path
extends the enclosing-struct prefix, stripped of that prefix. -/
def suffixesOf (uord : List ExprPath) (pre : ExprPath) (v : Finset ℕ) :
    List ExprPath :=
  ((iv2mv uord v).filterMap fun mx => mx.stripPre pre).dedup

/-- The suffixes commonly held at every surviving access of one (struct
type, field) bucket. -/
def bucketSurvivors (tf : List ℕ) (uord : List ExprPath)
    (accs0 : List (ℕ × ExprPath × Finset ℕ × Bool)) : List ExprPath :=
  listInterFold
    ((threadRetain tf (fun a => a.1) accs0).map fun a =>
      suffixesOf uord a.2.1 a.2.2.1)

/-- Process one (struct type, field) bucket: thread filter, read-only skip,
intersection of the held-suffix sets of all its accesses, and an arbitrary
surviving suffix's base as the protecting mutex field. -/
def processStructGroup (tf : List ℕ) (uord : List ExprPath)
    (accs0 : List (ℕ × ExprPath × Finset ℕ × Bool)) : Option String :=
  let accs := threadRetain tf (fun a => a.1) accs0
  if accs.isEmpty then none
  else if accs.all (fun a => !a.2.2.2) then none
  else ((bucketSurvivors tf uord accs0).head?).map fun m => m.base

/-- Insert into a sorted association list, overwriting an existing binding
(the `BTreeMap::insert` of the output maps). -/
def bInsert (m : List (String × String)) (k v : String) :
    List (String × String) :=
  match m with
  | [] => [(k, v)]
  | (k', v') :: rest =>
    if k = k' then (k, v) :: rest
    else if k < k' then (k, v) :: (k', v') :: rest
    else (k', v') :: bInsert rest k v

/-- Insert into the nested struct map (`struct_mutex_map.entry(typ)
.or_default().insert(field, m.base)`). -/
def bInsertN (m : List (String × List (String × String))) (k k2 v : String) :
    List (String × List (String × String)) :=
  match m with
  | [] => [(k, [(k2, v)])]
  | (k', inner) :: rest =>
    if k = k' then (k, bInsert inner k2 v) :: rest
    else if k < k' then (k, [(k2, v)]) :: (k', inner) :: rest
    else (k', inner) :: bInsertN rest k k2 v

/-- The output of the analysis: the three datum-to-mutex maps and the
per-procedure guard sets, each extended by the procedure's
`propagation_mutex`. -/
structure AnalysisSummary where
  mutex_map : List (String × String)
  array_mutex_map : List (String × String)
  struct_mutex_map : List (String × List (String × String))
  function_map : List (ℕ × (Finset ℕ × Finset ℕ × Finset ℕ))
  deriving DecidableEq

/-- The datum-to-mutex classifier: partition the accesses, group them by
datum, process every group, and build the output maps. -/
def classifyStage (F : Facts) (uord : List ExprPath)
    (summaries : List (ℕ × FunctionSummary)) : AnalysisSummary :=
  let tf := F.thread_functions
  let emissions := (groupByKey (collectGlobalAccesses summaries)).filterMap
    fun pr => processGlobalGroup tf uord pr.1 pr.2
  let structGroups := groupByKey (structTagged F summaries)
  { mutex_map := emissions.foldl
      (fun acc e => if e.1 = false then bInsert acc e.2.1 e.2.2 else acc) []
    array_mutex_map := emissions.foldl
      (fun acc e => if e.1 = true then bInsert acc e.2.1 e.2.2 else acc) []
    struct_mutex_map := structGroups.foldl
      (fun acc pr =>
        match processStructGroup tf uord pr.2 with
        | some mb => bInsertN acc pr.1.1 pr.1.2 mb
        | none => acc) []
    function_map := summaries.map fun pr =>
      (pr.1,
        (pr.2.entry_mutex ∪ pr.2.propagation_mutex,
         pr.2.node_mutex ∪ pr.2.propagation_mutex,
         pr.2.ret_mutex ∪ pr.2.propagation_mutex)) }

/-- The whole engine (`check_crate_post`): assert the call graph acyclic,
compute the per-procedure summaries in post order, run the interprocedural
fixed point, post-process it, and classify; `none` models the fatal aborts
of the source. -/
def check_crate_post (F : Facts) (uord : List ExprPath) :
    Option AnalysisSummary :=
  if F.hasCycle then none
  else
    (computeSummaries F uord).bind fun summaries =>
      (fixLoop F summaries (fixFuel F uord) (F.postOrderList).reverse
          (initAbs F uord summaries)).bind fun st =>
        (postProcess summaries st).map fun summaries2 =>
          classifyStage F uord summaries2

/-- A model of the front-end expression tree visited by the fact
collector's `check_expr`: an expression either resolves to an access path,
is an assignment (the left operand on the left of `=`), or is some other
compound expression with subexpressions. -/
inductive HExpr where
  | pathE (span : ℕ) (p : ExprPath)
  | assignE (span : ℕ) (lhs rhs : HExpr)
  | seqE (span : ℕ) (a b : HExpr)
  deriving DecidableEq

/-- The source span of an expression. -/
def HExpr.spanOf : HExpr → ℕ
  | HExpr.pathE s _ => s
  | HExpr.assignE s _ _ => s
  | HExpr.seqE s _ _ => s

/-- Resolve an expression to an access path when possible (`expr_to_path`;
assignments and other compounds do not resolve). -/
def exprToPath : HExpr → Option ExprPath
  | HExpr.pathE _ p => some p
  | _ => none

/-- The recording condition of `check_expr`: the path has a projection or
its base is a declared global (purely local variables are ignored). -/
def recordCond (globs : List String) (p : ExprPath) : Bool :=
  !p.is_variable || globs.contains p.base

/-- The records pushed by one invocation of `check_expr` on one expression
node: the generic visit pushes a non-write record for any expression
resolving to a recorded path, and the `Assign`/`AssignOp` arm additionally
pushes a write record for the left-hand side's path at the left-hand
side's span. -/
def visitRecords (globs : List String) (e : HExpr) :
    List (ℕ × ExprPath × Bool) :=
  (match exprToPath e with
   | some p => if recordCond globs p then [(e.spanOf, p, false)] else []
   | none => []) ++
  (match e with
   | HExpr.assignE _ lhs _ =>
     match exprToPath lhs with
     | some p => if recordCond globs p then [(lhs.spanOf, p, true)] else []
     | none => []
   | _ => [])

/-- The access records collected over a whole expression tree: the visitor
invokes `check_expr` on every node, parents before children. -/
def collectAccesses (globs : List String) : HExpr → List (ℕ × ExprPath × Bool)
  | HExpr.pathE s p => visitRecords globs (HExpr.pathE s p)
  | HExpr.assignE s lhs rhs =>
    visitRecords globs (HExpr.assignE s lhs rhs) ++
      collectAccesses globs lhs ++ collectAccesses globs rhs
  | HExpr.seqE s a b =>
    visitRecords globs (HExpr.seqE s a b) ++
      collectAccesses globs a ++ collectAccesses globs b

/-- Occurrence of an expression inside another. -/
inductive SubExpr : HExpr → HExpr → Prop where
  | refl (e : HExpr) : SubExpr e e
  | assignL {e : HExpr} (s : ℕ) (lhs rhs : HExpr) :
      SubExpr e lhs → SubExpr e (HExpr.assignE s lhs rhs)
  | assignR {e : HExpr} (s : ℕ) (lhs rhs : HExpr) :
      SubExpr e rhs → SubExpr e (HExpr.assignE s lhs rhs)
  | seqL {e : HExpr} (s : ℕ) (a b : HExpr) :
      SubExpr e a → SubExpr e (HExpr.seqE s a b)
  | seqR {e : HExpr} (s : ℕ) (a b : HExpr) :
      SubExpr e b → SubExpr e (HExpr.seqE s a b)

/-! Concrete example inputs used by witnesses and counterexamples. -/

/-- Concrete facts with a recursive call graph: procedures 0 and 1 call
each other. -/
def cycFacts : Facts :=
  { functions := [0, 1]
    body := fun f => if f = 0 then [Op.callOp 1 []] else [Op.callOp 0 []]
    params := fun _ => []
    pathType := fun _ _ => ""
    mutexesPerStruct := fun _ => none
    threadEntries := []
    globs := [] }

/-- Concrete facts spawning a thread whose entry procedure 0 calls 1. -/
def thrFacts : Facts :=
  { functions := [0, 1, 2]
    body := fun f => if f = 0 then [Op.callOp 1 []] else []
    params := fun _ => []
    pathType := fun _ _ => ""
    mutexesPerStruct := fun _ => none
    threadEntries := [0]
    globs := [] }

/-- A call argument `&s` of pointee type `S` whose access path is the
global `s`. -/
def aliasArg : Arg := { expr := "&s", typ := "S", path := some ⟨"s", []⟩ }

/-- Concrete facts on which the alias translator's universe lookup fails:
procedure 0 locks `s.mu` and calls procedure 1 with argument `&s`, and
procedure 1 (whose parameter is `p`) never mentions `p.mu`, so the
translated path `p.mu` has no identity in the universe. -/
def aliasFailFacts : Facts :=
  { functions := [0, 1]
    body := fun f =>
      if f = 0 then
        [Op.lockOp ⟨"s", [Proj.fieldP "mu"]⟩, Op.callOp 1 [aliasArg]]
      else []
    params := fun f => if f = 1 then [("p", "S")] else []
    pathType := fun _ _ => ""
    mutexesPerStruct := fun _ => none
    threadEntries := []
    globs := ["s"] }

/-- Concrete facts on which the forward substitution applies: procedure 1
observes the parameter-relative mutex `p.mu` and some call supplies the
argument `&s` of the parameter's pointee type. -/
def substFacts : Facts :=
  { functions := [0, 1]
    body := fun f =>
      if f = 0 then [Op.callOp 1 [aliasArg]]
      else
        [Op.lockOp ⟨"p", [Proj.fieldP "mu"]⟩,
         Op.unlockOp ⟨"p", [Proj.fieldP "mu"]⟩]
    params := fun f => if f = 1 then [("p", "S")] else []
    pathType := fun _ _ => ""
    mutexesPerStruct := fun _ => none
    threadEntries := []
    globs := ["s"] }

/-- Concrete facts on which the fixed-point assertion fails: root
procedure 0 calls procedure 1 holding nothing, while procedure 1 unlocks
`m` and therefore has `entry_mutex = {m}`. -/
def entryFailFacts : Facts :=
  { functions := [0, 1]
    body := fun f =>
      if f = 0 then [Op.callOp 1 []] else [Op.unlockOp ⟨"m", []⟩]
    params := fun _ => []
    pathType := fun _ _ => ""
    mutexesPerStruct := fun _ => none
    threadEntries := []
    globs := ["m"] }

/-- The summaries the engine computes on `entryFailFacts`. -/
def entryFailSummaries : List (ℕ × FunctionSummary) :=
  [(1, ⟨{0}, {0}, ∅, [], [], ∅⟩), (0, ⟨∅, ∅, ∅, [(1, ∅)], [], ∅⟩)]

/-- The post-order invariant: every procedure's callees appear strictly
before it in the traversal. -/
def poOrdered (F : Facts) (l : List ℕ) : Prop :=
  ∀ i f, l.get? i = some f → ∀ c ∈ F.calleesOf f, ∃ j, j < i ∧ l.get? j = some c

/-- Concrete facts with two mutexes both held at the only write to the
global `x`: the tie among the surviving candidate guards is broken by the
universe enumeration order. -/
def tieFacts : Facts :=
  { functions := [0]
    body := fun _ =>
      [Op.lockOp ⟨"a", []⟩, Op.lockOp ⟨"b", []⟩,
       Op.accessOp ⟨"x", []⟩ true,
       Op.unlockOp ⟨"b", []⟩, Op.unlockOp ⟨"a", []⟩]
    params := fun _ => []
    pathType := fun _ _ => ""
    mutexesPerStruct := fun _ => none
    threadEntries := []
    globs := ["x", "a", "b"] }

/-- Concrete facts whose only guard is the projection-free path `p`,
where `p` is a parameter of the accessing procedure, not a global. -/
def paramGuardFacts : Facts :=
  { functions := [0]
    body := fun _ =>
      [Op.lockOp ⟨"p", []⟩, Op.accessOp ⟨"x", []⟩ true,
       Op.unlockOp ⟨"p", []⟩]
    params := fun _ => [("p", "pthread_mutex_t")]
    pathType := fun _ _ => ""
    mutexesPerStruct := fun _ => none
    threadEntries := []
    globs := ["x"] }

/-- Concrete facts writing `s.data` under the nested mutex
`s.inner.mu2`, where the enclosing struct type `S` declares only `mu` as
a mutex-typed field: the struct classifier emits the non-mutex field name
`inner` as the guard. -/
def structGuardFacts : Facts :=
  { functions := [0]
    body := fun _ =>
      [Op.lockOp ⟨"s", [Proj.fieldP "inner", Proj.fieldP "mu2"]⟩,
       Op.accessOp ⟨"s", [Proj.fieldP "data"]⟩ true,
       Op.unlockOp ⟨"s", [Proj.fieldP "inner", Proj.fieldP "mu2"]⟩]
    params := fun _ => []
    pathType := fun _ p => if p = ⟨"s", []⟩ then "S" else ""
    mutexesPerStruct := fun t => if t = "S" then some ["mu"] else none
    threadEntries := []
    globs := ["s"] }

/-- Concrete facts writing the field `f` of an array-of-structs element
`arr[i]` under the element's own mutex field `arr[i].mu`. -/
def arrayStructFacts : Facts :=
  { functions := [0]
    body := fun _ =>
      [Op.lockOp ⟨"arr", [Proj.indexP "i", Proj.fieldP "mu"]⟩,
       Op.accessOp ⟨"arr", [Proj.indexP "i", Proj.fieldP "f"]⟩ true,
       Op.unlockOp ⟨"arr", [Proj.indexP "i", Proj.fieldP "mu"]⟩]
    params := fun _ => []
    pathType := fun _ p =>
      if p = ⟨"arr", [Proj.indexP "i"]⟩ then "S" else ""
    mutexesPerStruct := fun t => if t = "S" then some ["mu"] else none
    threadEntries := []
    globs := ["arr"] }

/-- Minimal facts for exercising the classifier directly. -/
def wFacts : Facts :=
  { functions := [0]
    body := fun _ => []
    params := fun _ => []
    pathType := fun _ _ => ""
    mutexesPerStruct := fun _ => none
    threadEntries := []
    globs := ["x"] }

/-- A one-procedure summary list with a single write access to the global
`x` performed with mutex identity 0 held. -/
def wSummaries : List (ℕ × FunctionSummary) :=
  [(0, ⟨∅, {0}, ∅, [], [(⟨"x", []⟩, {0}, true)], ∅⟩)]

/-! Helper lemmas. -/

theorem getLast?_mem' {α : Type} {l : List α} {a : α}
    (h : l.getLast? = some a) : a ∈ l := by
  obtain ⟨hne, rfl⟩ :=
    List.mem_getLast?_eq_getLast (l := l) (x := a) (by simp [h, Option.mem_def])
  exact List.getLast_mem hne

theorem head?_mem' {α : Type} {l : List α} {a : α}
    (h : l.head? = some a) : a ∈ l :=
  List.mem_of_mem_head? (by simp [h, Option.mem_def])

theorem stepReach_mono (F : Facts) {s t : Finset ℕ} (h : s ⊆ t) :
    F.stepReach s ⊆ F.stepReach t := by
  unfold Facts.stepReach
  exact Finset.union_subset_union h
    (Finset.biUnion_subset_biUnion_of_subset_left _ h)

theorem subset_stepReach (F : Facts) (s : Finset ℕ) : s ⊆ F.stepReach s :=
  Finset.subset_union_left

theorem subset_iterate_stepReach (F : Facts) (n : ℕ) (s : Finset ℕ) :
    s ⊆ (F.stepReach)^[n] s := by
  induction n with
  | zero => simp
  | succ n ih =>
    rw [Function.iterate_succ_apply']
    exact ih.trans (subset_stepReach F _)

theorem stepReach_subset_iterate (F : Facts) {n : ℕ} (hn : 0 < n)
    (s : Finset ℕ) : F.stepReach s ⊆ (F.stepReach)^[n] s := by
  obtain ⟨m, rfl⟩ := Nat.exists_eq_succ_of_ne_zero hn.ne'
  rw [Function.iterate_succ_apply]
  exact subset_iterate_stepReach F m _

theorem hasCycle_of_self_call (F : Facts) {f : ℕ} (hf : f ∈ F.functions)
    (hself : f ∈ F.calleesOf f) : F.hasCycle = true := by
  rw [Facts.hasCycle, List.any_eq_true]
  refine ⟨f, hf, ?_⟩
  rw [decide_eq_true_iff]
  exact subset_iterate_stepReach F _ _ (by simpa [Facts.calleeFinset] using hself)

theorem hasCycle_of_mutual_call (F : Facts) {f g : ℕ} (hf : f ∈ F.functions)
    (hfg : g ∈ F.calleesOf f) (hgf : f ∈ F.calleesOf g) :
    F.hasCycle = true := by
  rw [Facts.hasCycle, List.any_eq_true]
  refine ⟨f, hf, ?_⟩
  rw [decide_eq_true_iff]
  have hlen : 0 < F.functions.length := List.length_pos_of_mem hf
  refine stepReach_subset_iterate F hlen _ ?_
  rw [Facts.stepReach]
  refine Finset.mem_union_right _ ?_
  rw [Finset.mem_biUnion]
  exact ⟨g, by simpa [Facts.calleeFinset] using hfg,
    by simpa [Facts.calleeFinset] using hgf⟩

/-- C7: on a malformed call graph — a cycle among user procedures, in
particular a self-call or a pair of mutually recursive procedures — the
analysis aborts (`check_crate_post` yields no output maps), modelling the
fatal assertion on the strongly-connected-component condensation. -/
theorem claim7_cycle_aborts (F : Facts) (uord : List ExprPath) :
    (F.hasCycle = true → check_crate_post F uord = none) ∧
    (∀ f, f ∈ F.functions → f ∈ F.calleesOf f →
      check_crate_post F uord = none) ∧
    (∀ f g, f ∈ F.functions → g ∈ F.functions → g ∈ F.calleesOf f →
      f ∈ F.calleesOf g → check_crate_post F uord = none) := by
  refine ⟨fun h => by simp [check_crate_post, h], ?_, ?_⟩
  · intro f hf hself
    simp [check_crate_post, hasCycle_of_self_call F hf hself]
  · intro f g hf _ hfg hgf
    simp [check_crate_post, hasCycle_of_mutual_call F hf hfg hgf]


theorem claim7_cycle_aborts_witness :
    (0 ∈ cycFacts.functions ∧ 1 ∈ cycFacts.functions ∧
      1 ∈ cycFacts.calleesOf 0 ∧ 0 ∈ cycFacts.calleesOf 1) ∧
    check_crate_post cycFacts [] = none :=
  ⟨by decide,
    (claim7_cycle_aborts cycFacts []).2.2 0 1 (by decide) (by decide)
      (by decide) (by decide)⟩

/-- C6: the classifier's thread filter.  When the program spawns no thread
(empty thread-entry set) the filter is skipped and every access is kept;
when the thread-reachable set is non-empty, exactly the accesses whose
enclosing procedure lies in it are kept; and the thread-reachable set is
non-empty exactly when the thread-entry set is. -/
theorem claim6_thread_filter {α : Type} (F : Facts) (encl : α → ℕ)
    (l : List α) :
    (F.threadEntries = [] → threadRetain F.thread_functions encl l = l) ∧
    (F.thread_functions ≠ [] →
      threadRetain F.thread_functions encl l =
        l.filter fun a => F.thread_functions.contains (encl a)) ∧
    (F.thread_functions ≠ [] ↔ F.threadEntries ≠ []) := by
  refine ⟨?_, ?_, ?_⟩
  · intro h
    simp [threadRetain, Facts.thread_functions, h]
  · intro h
    rw [threadRetain, if_neg (by simpa [List.isEmpty_iff] using h)]
  · constructor
    · intro h hent
      exact h (by simp [Facts.thread_functions, hent])
    · intro h
      rw [Facts.thread_functions, if_neg (by simpa [List.isEmpty_iff] using h)]
      obtain ⟨e, he⟩ := List.exists_mem_of_ne_nil _ h
      exact List.ne_nil_of_mem
        (List.mem_dedup.2 (List.mem_append_left _ he))


theorem claim6_thread_filter_witness :
    (thrFacts.thread_functions ≠ [] ∧
      threadRetain thrFacts.thread_functions (fun a => a) [0, 1, 2] =
        List.filter (fun a => thrFacts.thread_functions.contains a)
          [0, 1, 2]) ∧
    (cycFacts.threadEntries = [] ∧
      threadRetain cycFacts.thread_functions (fun a => a) [0, 1, 2] =
        [0, 1, 2]) :=
  ⟨⟨by decide,
      (claim6_thread_filter thrFacts (fun a => a) [0, 1, 2]).2.1 (by decide)⟩,
    ⟨by decide,
      (claim6_thread_filter cycFacts (fun a => a) [0, 1, 2]).1 (by decide)⟩⟩

/-- C9: for every assignment occurring anywhere in a visited expression
whose left-hand side resolves to a recorded access path, the fact
collector records that path twice at the same span: once with the write
flag false (from the generic expression visit of the left-hand side) and
once with the write flag true (from the `Assign`/`AssignOp` arm). -/
theorem claim9_assignment_double_record (globs : List String) (e : HExpr)
    (s : ℕ) (l r : HExpr) (p : ExprPath)
    (hsub : SubExpr (HExpr.assignE s l r) e)
    (hp : exprToPath l = some p) (hc : recordCond globs p = true) :
    (l.spanOf, p, false) ∈ collectAccesses globs e ∧
    (l.spanOf, p, true) ∈ collectAccesses globs e := by
  induction hsub with
  | refl =>
    cases l with
    | pathE sp q =>
      simp only [exprToPath, Option.some.injEq] at hp
      subst hp
      constructor
      · simp [collectAccesses, visitRecords, exprToPath, hc, HExpr.spanOf]
      · simp [collectAccesses, visitRecords, exprToPath, hc, HExpr.spanOf]
    | assignE _ _ _ => simp [exprToPath] at hp
    | seqE _ _ _ => simp [exprToPath] at hp
  | assignL s' lhs rhs _ ih =>
    obtain ⟨h1, h2⟩ := ih
    exact ⟨by simp [collectAccesses]; tauto, by simp [collectAccesses]; tauto⟩
  | assignR s' lhs rhs _ ih =>
    obtain ⟨h1, h2⟩ := ih
    exact ⟨by simp [collectAccesses]; tauto, by simp [collectAccesses]; tauto⟩
  | seqL s' a b _ ih =>
    obtain ⟨h1, h2⟩ := ih
    exact ⟨by simp [collectAccesses]; tauto, by simp [collectAccesses]; tauto⟩
  | seqR s' a b _ ih =>
    obtain ⟨h1, h2⟩ := ih
    exact ⟨by simp [collectAccesses]; tauto, by simp [collectAccesses]; tauto⟩



theorem claim3_counterexample :
    aliasFailFacts.possible_mutexes = [⟨"s", [Proj.fieldP "mu"]⟩] ∧
    alias_id aliasFailFacts aliasFailFacts.possible_mutexes 1 [aliasArg] 0 =
      none ∧
    transHeld aliasFailFacts aliasFailFacts.possible_mutexes 1 [aliasArg]
      {0} = none ∧
    computeSummaries aliasFailFacts aliasFailFacts.possible_mutexes = none ∧
    check_crate_post aliasFailFacts aliasFailFacts.possible_mutexes = none := by
  decide

/-- C3 (amended): the universe really is closed under the forward
parameter substitution performed by `possible_mutexes`: for every
non-variable mutex expression m observed in a procedure whose base matches
a parameter of pointee type t, and every recorded call argument of type t,
the base-rewritten path is in the universe.  (The backward translation of
`alias_id` can still fail, as `claim3_counterexample` shows.) -/
theorem claim3_universe_closed (F : Facts) (f : ℕ) (m : ExprPath)
    (name t a : String) (hf : f ∈ F.functions) (hm : m ∈ F.mutexesOf f)
    (hnv : m.is_variable = false)
    (hfind : (F.params f).find? (fun pr => pr.1 = m.base) = some (name, t))
    (ha : a ∈ F.argsPerType t) :
    m.rebase a ∈ F.possible_mutexes := by
  rw [Facts.possible_mutexes, List.mem_dedup]
  refine List.mem_append_right _ ?_
  rw [List.mem_flatMap]
  refine ⟨f, hf, ?_⟩
  rw [List.mem_flatMap]
  refine ⟨m, hm, ?_⟩
  rw [if_neg (by simp [hnv]), hfind]
  exact List.mem_map.2 ⟨a, ha, rfl⟩


theorem claim3_universe_closed_witness :
    (1 ∈ substFacts.functions ∧
      (⟨"p", [Proj.fieldP "mu"]⟩ : ExprPath) ∈ substFacts.mutexesOf 1 ∧
      (ExprPath.is_variable ⟨"p", [Proj.fieldP "mu"]⟩) = false ∧
      (substFacts.params 1).find?
        (fun pr => pr.1 = (⟨"p", [Proj.fieldP "mu"]⟩ : ExprPath).base) =
        some ("p", "S") ∧
      "&s" ∈ substFacts.argsPerType "S") ∧
    ExprPath.rebase ⟨"p", [Proj.fieldP "mu"]⟩ "&s" ∈
      substFacts.possible_mutexes :=
  ⟨by decide,
    claim3_universe_closed substFacts 1 ⟨"p", [Proj.fieldP "mu"]⟩ "p" "S" "&s"
      (by decide) (by decide) (by decide) (by decide) (by decide)⟩



theorem claim4_counterexample :
    computeSummaries entryFailFacts entryFailFacts.possible_mutexes =
      some entryFailSummaries ∧
    fixLoop entryFailFacts entryFailSummaries
      (fixFuel entryFailFacts entryFailFacts.possible_mutexes)
      (entryFailFacts.postOrderList).reverse
      (initAbs entryFailFacts entryFailFacts.possible_mutexes
        entryFailSummaries) = some [(0, ∅), (1, ∅)] ∧
    (lookupSummary entryFailSummaries 1).map FunctionSummary.entry_mutex =
      some {0} ∧
    ¬ ({0} : Finset ℕ) ⊆ stGet [(0, ∅), (1, ∅)] 1 ∧
    postProcess entryFailSummaries [(0, ∅), (1, ∅)] = none ∧
    check_crate_post entryFailFacts entryFailFacts.possible_mutexes =
      none := by decide

/-- C4 (amended): on every input on which the checked assertion
`abs_state[f] ⊇ entry_mutex[f]` succeeds (post-processing does not abort),
`propagation_mutex[f] = abs_state[f] \ entry_mutex[f]` and it is disjoint
from `entry_mutex[f]`.  (The assertion itself can fail, as
`claim4_counterexample` shows.) -/
theorem claim4_postprocess_disjoint (st : AbsSt) :
    ∀ summaries out : List (ℕ × FunctionSummary),
      postProcess summaries st = some out →
      ∀ f s, (f, s) ∈ out →
        ∃ s0, (f, s0) ∈ summaries ∧ s0.entry_mutex ⊆ stGet st f ∧
          s.entry_mutex = s0.entry_mutex ∧
          s.propagation_mutex = stGet st f \ s0.entry_mutex ∧
          Disjoint s.propagation_mutex s.entry_mutex := by
  intro summaries
  induction summaries with
  | nil =>
    intro out h f s hmem
    rw [postProcess] at h
    cases h
    simp at hmem
  | cons pr rest ih =>
    intro out h f s hmem
    rw [postProcess] at h
    by_cases hsub : pr.2.entry_mutex ⊆ stGet st pr.1
    · rw [if_pos hsub] at h
      obtain ⟨l, hl, rfl⟩ := Option.map_eq_some'.1 h
      rcases List.mem_cons.1 hmem with heq | htail
      · rw [Prod.mk.injEq] at heq
        obtain ⟨hf, hs⟩ := heq
        subst hf
        subst hs
        exact ⟨pr.2, List.mem_cons_self _ _, hsub, rfl, rfl,
          Finset.sdiff_disjoint⟩
      · obtain ⟨s0, hmem0, h1, h2, h3, h4⟩ := ih l hl f s htail
        exact ⟨s0, List.mem_cons_of_mem _ hmem0, h1, h2, h3, h4⟩
    · rw [if_neg hsub] at h
      exact absurd h (by simp)

theorem claim4_postprocess_disjoint_witness :
    postProcess [(0, ⟨∅, ∅, ∅, [], [], ∅⟩)] [(0, {5})] =
      some [(0, ⟨∅, ∅, ∅, [], [], {5}⟩)] ∧
    (∃ s0, (0, s0) ∈ [(0, (⟨∅, ∅, ∅, [], [], ∅⟩ : FunctionSummary))] ∧
      s0.entry_mutex ⊆ stGet [(0, {5})] 0 ∧
      (⟨∅, ∅, ∅, [], [], {5}⟩ : FunctionSummary).entry_mutex =
        s0.entry_mutex ∧
      (⟨∅, ∅, ∅, [], [], {5}⟩ : FunctionSummary).propagation_mutex =
        stGet [(0, {5})] 0 \ s0.entry_mutex ∧
      Disjoint (⟨∅, ∅, ∅, [], [], {5}⟩ : FunctionSummary).propagation_mutex
        (⟨∅, ∅, ∅, [], [], {5}⟩ : FunctionSummary).entry_mutex) :=
  ⟨by decide,
    claim4_postprocess_disjoint [(0, {5})] [(0, ⟨∅, ∅, ∅, [], [], ∅⟩)]
      [(0, ⟨∅, ∅, ∅, [], [], {5}⟩)] (by decide) 0 ⟨∅, ∅, ∅, [], [], {5}⟩
      (by decide)⟩


theorem poRound_ordered (F : Facts) (acc : List ℕ) (h : poOrdered F acc) :
    poOrdered F (F.poRound acc) := by
  intro i f hi c hc
  rw [Facts.poRound] at hi
  by_cases hlt : i < acc.length
  · rw [List.get?_append hlt] at hi
    obtain ⟨j, hj, hjc⟩ := h i f hi c hc
    exact ⟨j, hj,
      by rw [Facts.poRound, List.get?_append (lt_trans hj hlt)]; exact hjc⟩
  · push_neg at hlt
    rw [List.get?_append_right hlt] at hi
    have hfmem := List.get?_mem hi
    rw [List.mem_filter] at hfmem
    obtain ⟨_, hcond⟩ := hfmem
    rw [Bool.and_eq_true] at hcond
    have hcallees := List.all_eq_true.1 hcond.2 c hc
    have hcacc : c ∈ acc := by simpa using hcallees
    obtain ⟨j, hjeq⟩ := List.mem_iff_get?.1 hcacc
    have hjlt : j < acc.length := (List.get?_eq_some.1 hjeq).1
    exact ⟨j, lt_of_lt_of_le hjlt hlt,
      by rw [Facts.poRound, List.get?_append hjlt]; exact hjeq⟩

theorem postOrder_ordered (F : Facts) : poOrdered F F.postOrderList := by
  rw [Facts.postOrderList]
  induction F.functions.length with
  | zero =>
    intro i f hi
    simp at hi
  | succ n ih =>
    rw [Function.iterate_succ_apply']
    exact poRound_ordered F _ ih

theorem edgeUpdate_subset (stF P old : Finset ℕ) :
    edgeUpdate stF P old ⊆ old := Finset.inter_subset_left

theorem edgeUpdate_ne_iff (stF P old : Finset ℕ) :
    edgeUpdate stF P old ≠ old ↔ edgeUpdate stF P old ⊂ old := by
  rw [Finset.ssubset_iff_subset_ne]
  exact ⟨fun h => ⟨edgeUpdate_subset stF P old, h⟩, fun h => h.2⟩

/-- C2: structure of the interprocedural fixed point.  Roots are exactly
the procedures with no incoming call edge and are initialized with their
own `entry_mutex` while all others get the full universe; the work list is
seeded with the reverse of a traversal in which every callee precedes its
callers; and along a call edge f → c with translated set P the callee's
state becomes `abs_state[c] ∩ (P ∪ abs_state[f])`, with c (re-)enqueued
exactly when that intersection strictly shrinks the state and c is not
already enqueued.  The update is applied once per call edge recorded in
the call graph. -/
theorem claim2_fixed_point_structure (F : Facts) (uord : List ExprPath)
    (summaries : List (ℕ × FunctionSummary)) :
    (∀ c, isRoot F c = true ↔ ∀ f ∈ F.functions, c ∉ F.calleesOf f) ∧
    (∀ f v, (f, v) ∈ initAbs F uord summaries ↔
      f ∈ F.postOrderList ∧
        v = if isRoot F f then
              ((lookupSummary summaries f).map
                FunctionSummary.entry_mutex).getD ∅
            else Finset.range uord.length) ∧
    poOrdered F F.postOrderList ∧
    (∀ stF P old : Finset ℕ, edgeUpdate stF P old = old ∩ (P ∪ stF) ∧
      (edgeUpdate stF P old ≠ old ↔ edgeUpdate stF P old ⊂ old)) ∧
    (∀ (prop : ℕ → Option (Finset ℕ)) (stF : Finset ℕ) (c : ℕ) (cs wl : List ℕ)
      (st : AbsSt) (P : Finset ℕ), prop c = some P →
      succFold stF prop (c :: cs) wl st =
        succFold stF prop cs
          (if edgeUpdate stF P (stGet st c) ⊂ stGet st c ∧ c ∉ wl
           then wl ++ [c] else wl)
          (stSet st c (edgeUpdate stF P (stGet st c)))) := by
  refine ⟨?_, ?_, postOrder_ordered F, ?_, ?_⟩
  · intro c
    rw [isRoot, List.isEmpty_iff, Facts.callersOf, List.filter_eq_nil_iff]
    constructor
    · intro h f hf hc
      exact h f hf (by simpa using hc)
    · intro h f hf hc
      exact h f hf (by simpa using hc)
  · intro f v
    rw [initAbs, List.mem_map]
    constructor
    · rintro ⟨a, ha, heq⟩
      rw [Prod.mk.injEq] at heq
      obtain ⟨rfl, rfl⟩ := heq
      exact ⟨List.mem_reverse.1 ha, rfl⟩
    · rintro ⟨hf, rfl⟩
      exact ⟨f, List.mem_reverse.2 hf, rfl⟩
  · intro stF P old
    exact ⟨rfl, edgeUpdate_ne_iff stF P old⟩
  · intro prop stF c cs wl st P hP
    rw [succFold, hP]
    simp only [edgeUpdate_ne_iff]

theorem claim2_fixed_point_structure_witness :
    (isRoot thrFacts 0 = true ↔
      ∀ f ∈ thrFacts.functions, 0 ∉ thrFacts.calleesOf f) ∧
    ((fun _ => some (∅ : Finset ℕ)) 1 = some ∅ ∧
      succFold {0} (fun _ => some ∅) [1] [] [(1, {0})] =
        succFold {0} (fun _ => some ∅) []
          (if edgeUpdate {0} ∅ (stGet [(1, {0})] 1) ⊂ stGet [(1, {0})] 1 ∧
              1 ∉ ([] : List ℕ)
           then [] ++ [1] else [])
          (stSet [(1, {0})] 1 (edgeUpdate {0} ∅ (stGet [(1, {0})] 1)))) :=
  ⟨(claim2_fixed_point_structure thrFacts [] []).1 0,
    rfl,
    (claim2_fixed_point_structure thrFacts [] []).2.2.2.2
      (fun _ => some ∅) {0} 1 [] [] [(1, {0})] ∅ rfl⟩

theorem bInsert_mem {m : List (String × String)} {k0 v0 k v : String}
    (h : (k, v) ∈ bInsert m k0 v0) : (k = k0 ∧ v = v0) ∨ (k, v) ∈ m := by
  induction m with
  | nil =>
    rw [bInsert] at h
    rcases List.mem_cons.1 h with he | hr
    · exact Or.inl (by simpa using he)
    · simp at hr
  | cons pr rest ih =>
    obtain ⟨k', v'⟩ := pr
    rw [bInsert] at h
    split_ifs at h with h1 h2
    · rcases List.mem_cons.1 h with he | hr
      · exact Or.inl (by simpa using he)
      · exact Or.inr (List.mem_cons_of_mem _ hr)
    · rcases List.mem_cons.1 h with he | hr
      · exact Or.inl (by simpa using he)
      · exact Or.inr hr
    · rcases List.mem_cons.1 h with he | hr
      · exact Or.inr (List.mem_cons.2 (Or.inl he))
      · rcases ih hr with h' | h'
        · exact Or.inl h'
        · exact Or.inr (List.mem_cons_of_mem _ h')

theorem foldl_emit_mem (b : Bool) :
    ∀ (ems : List (Bool × String × String)) (acc : List (String × String))
      (k v : String),
      (k, v) ∈ ems.foldl
        (fun acc e => if e.1 = b then bInsert acc e.2.1 e.2.2 else acc) acc →
      (k, v) ∈ acc ∨ (b, k, v) ∈ ems := by
  intro ems
  induction ems with
  | nil => intro acc k v h; exact Or.inl h
  | cons e rest ih =>
    intro acc k v h
    rw [List.foldl_cons] at h
    rcases ih _ k v h with hacc | hrest
    · by_cases hb : e.1 = b
      · rw [if_pos hb] at hacc
        rcases bInsert_mem hacc with ⟨rfl, rfl⟩ | hold
        · refine Or.inr (List.mem_cons.2 (Or.inl ?_))
          obtain ⟨eb, ek, ev⟩ := e
          simp only at hb
          rw [hb]
        · exact Or.inl hold
      · rw [if_neg hb] at hacc
        exact Or.inl hacc
    · exact Or.inr (List.mem_cons_of_mem _ hrest)

theorem bInsertN_mem {k0 k20 v0 typ fld mb : String} :
    ∀ {m : List (String × List (String × String))}
      {inner : List (String × String)},
      (typ, inner) ∈ bInsertN m k0 k20 v0 → (fld, mb) ∈ inner →
      (typ = k0 ∧ fld = k20 ∧ mb = v0) ∨
        ∃ inner0, (typ, inner0) ∈ m ∧ (fld, mb) ∈ inner0 := by
  intro m
  induction m with
  | nil =>
    intro inner h h2
    rw [bInsertN] at h
    rcases List.mem_cons.1 h with he | hr
    · rw [Prod.mk.injEq] at he
      obtain ⟨rfl, rfl⟩ := he
      rcases List.mem_cons.1 h2 with he2 | hr2
      · exact Or.inl (by simpa using he2)
      · simp at hr2
    · simp at hr
  | cons pr rest ih =>
    intro inner h h2
    obtain ⟨k', inn'⟩ := pr
    rw [bInsertN] at h
    split_ifs at h with h1 h2'
    · rcases List.mem_cons.1 h with he | hr
      · rw [Prod.mk.injEq] at he
        obtain ⟨rfl, rfl⟩ := he
        rcases bInsert_mem h2 with ⟨rfl, rfl⟩ | hold
        · exact Or.inl ⟨rfl, rfl, rfl⟩
        · exact Or.inr ⟨inn', List.mem_cons.2 (Or.inl (by rw [h1])), hold⟩
      · exact Or.inr ⟨inner, List.mem_cons_of_mem _ hr, h2⟩
    · rcases List.mem_cons.1 h with he | hr
      · rw [Prod.mk.injEq] at he
        obtain ⟨rfl, rfl⟩ := he
        rcases List.mem_cons.1 h2 with he2 | hr2
        · exact Or.inl (by simpa using he2)
        · simp at hr2
      · exact Or.inr ⟨inner, hr, h2⟩
    · rcases List.mem_cons.1 h with he | hr
      · exact Or.inr ⟨inner, List.mem_cons.2 (Or.inl he), h2⟩
      · rcases ih hr h2 with h' | ⟨inner0, hm0, hin0⟩
        · exact Or.inl h'
        · exact Or.inr ⟨inner0, List.mem_cons_of_mem _ hm0, hin0⟩

theorem foldl_structEmit_mem (tf : List ℕ) (uord : List ExprPath) :
    ∀ (groups :
        List ((String × String) × List (ℕ × ExprPath × Finset ℕ × Bool)))
      (acc : List (String × List (String × String)))
      (typ : String) (inner : List (String × String)) (fld mb : String),
      (typ, inner) ∈ groups.foldl
        (fun acc pr =>
          match processStructGroup tf uord pr.2 with
          | some mb0 => bInsertN acc pr.1.1 pr.1.2 mb0
          | none => acc) acc →
      (fld, mb) ∈ inner →
      (∃ inner0, (typ, inner0) ∈ acc ∧ (fld, mb) ∈ inner0) ∨
        ∃ g ∈ groups, g.1 = (typ, fld) ∧
          processStructGroup tf uord g.2 = some mb := by
  intro groups
  induction groups with
  | nil =>
    intro acc typ inner fld mb h h2
    exact Or.inl ⟨inner, h, h2⟩
  | cons g rest ih =>
    intro acc typ inner fld mb h h2
    rw [List.foldl_cons] at h
    rcases ih _ typ inner fld mb h h2 with ⟨inner0, hm0, hin0⟩ | hrest
    · cases hg : processStructGroup tf uord g.2 with
      | none =>
        rw [hg] at hm0
        exact Or.inl ⟨inner0, hm0, hin0⟩
      | some mb0 =>
        rw [hg] at hm0
        rcases bInsertN_mem hm0 hin0 with ⟨rfl, rfl, rfl⟩ | hvia
        · exact Or.inr ⟨g, List.mem_cons_self _ _,
            by rw [Prod.mk.injEq]; exact ⟨rfl, rfl⟩, hg⟩
        · exact Or.inl hvia
    · obtain ⟨g0, hg0, hkey, hproc⟩ := hrest
      exact Or.inr ⟨g0, List.mem_cons_of_mem _ hg0, hkey, hproc⟩

theorem groupByKey_mem {κ α : Type} [DecidableEq κ] {l : List (κ × α)}
    {k : κ} {g : List α} (h : (k, g) ∈ groupByKey l) :
    g = l.filterMap fun pr => if pr.1 = k then some pr.2 else none := by
  rw [groupByKey, List.mem_map] at h
  obtain ⟨k', _, heq⟩ := h
  rw [Prod.mk.injEq] at heq
  obtain ⟨rfl, hg⟩ := heq
  exact hg.symm

theorem groupByKey_key_mem {κ α : Type} [DecidableEq κ] {l : List (κ × α)}
    {k : κ} {g : List α} (h : (k, g) ∈ groupByKey l) : ∃ x, (k, x) ∈ l := by
  rw [groupByKey, List.mem_map] at h
  obtain ⟨k', hk', heq⟩ := h
  rw [Prod.mk.injEq] at heq
  obtain ⟨rfl, _⟩ := heq
  rw [keysOf, List.mem_dedup, List.mem_map] at hk'
  obtain ⟨pr, hpr, rfl⟩ := hk'
  exact ⟨pr.2, by simpa using hpr⟩

theorem mem_group_of_mem {κ α : Type} [DecidableEq κ] {l : List (κ × α)}
    {k : κ} {x : α} (h : (k, x) ∈ l) :
    x ∈ l.filterMap fun pr => if pr.1 = k then some pr.2 else none :=
  List.mem_filterMap.2 ⟨(k, x), h, by simp⟩

theorem foldl_inter_subset (l : List (Finset ℕ)) (a : Finset ℕ) :
    l.foldl (· ∩ ·) a ⊆ a ∧ ∀ b ∈ l, l.foldl (· ∩ ·) a ⊆ b := by
  induction l generalizing a with
  | nil => simp
  | cons b rest ih =>
    rw [List.foldl_cons]
    obtain ⟨h1, h2⟩ := ih (a ∩ b)
    refine ⟨h1.trans Finset.inter_subset_left, ?_⟩
    intro c hc
    rcases List.mem_cons.1 hc with rfl | hcr
    · exact h1.trans Finset.inter_subset_right
    · exact h2 c hcr

theorem interFold_subset {vs : List (Finset ℕ)} {v : Finset ℕ}
    (hv : v ∈ vs) : interFold vs ⊆ v := by
  cases vs with
  | nil => simp at hv
  | cons a rest =>
    rw [interFold]
    rcases List.mem_cons.1 hv with rfl | hr
    · exact (foldl_inter_subset rest v).1
    · exact (foldl_inter_subset rest a).2 v hr

theorem foldl_listInter_mem (ls : List (List ExprPath)) (a : List ExprPath)
    (x : ExprPath)
    (hx : x ∈ ls.foldl (fun a b => a.filter fun m => b.contains m) a) :
    x ∈ a ∧ ∀ b ∈ ls, x ∈ b := by
  induction ls generalizing a with
  | nil => exact ⟨hx, by simp⟩
  | cons b rest ih =>
    rw [List.foldl_cons] at hx
    obtain ⟨h1, h2⟩ := ih _ hx
    rw [List.mem_filter] at h1
    refine ⟨h1.1, ?_⟩
    intro c hc
    rcases List.mem_cons.1 hc with rfl | hcr
    · simpa using h1.2
    · exact h2 c hcr

theorem listInterFold_mem {ls : List (List ExprPath)} {x : ExprPath}
    (hx : x ∈ listInterFold ls) : ∀ l ∈ ls, x ∈ l := by
  cases ls with
  | nil =>
    rw [listInterFold] at hx
    simp at hx
  | cons a rest =>
    rw [listInterFold] at hx
    intro l hl
    rcases List.mem_cons.1 hl with heq | hr
    · exact heq ▸ (foldl_listInter_mem rest a x hx).1
    · exact (foldl_listInter_mem rest a x hx).2 l hr

theorem iv2mv_mem {uord : List ExprPath} {s : Finset ℕ} {m : ExprPath}
    (h : m ∈ iv2mv uord s) : ∃ i, i ∈ s ∧ uord.get? i = some m := by
  rw [iv2mv, List.mem_filterMap] at h
  obtain ⟨i, hi, hget⟩ := h
  rw [List.mem_filter] at hi
  exact ⟨i, by simpa using hi.2, hget⟩

theorem threadRetain_mem {α : Type} {tf : List ℕ} {encl : α → ℕ}
    {l : List α} {a : α} (ha : a ∈ l) (hk : tf = [] ∨ encl a ∈ tf) :
    a ∈ threadRetain tf encl l := by
  rw [threadRetain]
  split_ifs with h
  · exact ha
  · rcases hk with rfl | hm
    · simp at h
    · exact List.mem_filter.2 ⟨ha, by simpa using hm⟩

theorem scalarPick_mem {cands : List ExprPath} {m : ExprPath}
    (h : scalarPick cands = some m) :
    m ∈ cands ∧ m.is_variable = true := by
  rw [scalarPick] at h
  have hm := getLast?_mem' h
  rw [List.mem_filter] at hm
  exact hm

theorem arrayPick_mem {i : String} {cands : List ExprPath} {m : ExprPath}
    (h : arrayPick i cands = some m) :
    m ∈ cands ∧ m.projections.head? = some (Proj.indexP i) := by
  rw [arrayPick] at h
  have hm := getLast?_mem' h
  rw [List.mem_filter] at hm
  refine ⟨hm.1, ?_⟩
  have hb := hm.2
  cases hh : m.projections.head? with
  | none => rw [hh] at hb; simp at hb
  | some pr =>
    cases pr with
    | fieldP f => rw [hh] at hb; simp at hb
    | indexP j =>
      rw [hh] at hb
      simp only [decide_eq_true_eq] at hb
      subst hb
      simp [hh]

theorem popLast_eq {p : ExprPath} {q : Proj} {p' : ExprPath}
    (h : p.popLast = some (q, p')) :
    p'.base = p.base ∧ p.projections = p'.projections ++ [q] := by
  rw [ExprPath.popLast] at h
  cases hl : p.projections.getLast? with
  | none => rw [hl] at h; cases h
  | some q0 =>
    rw [hl] at h
    rw [Option.some.injEq, Prod.mk.injEq] at h
    obtain ⟨rfl, rfl⟩ := h
    exact ⟨rfl,
      (List.dropLast_append_getLast? q0 (by simp [hl, Option.mem_def])).symm⟩

theorem walkAux_some_shape (F : Facts) (f : ℕ) :
    ∀ (n : ℕ) (p : ExprPath) (typ : String) (pre : ExprPath) (fl : String),
      walkAux F f n p = some (typ, pre, fl) →
      pre.base = p.base ∧
      (∃ rest, p.projections = pre.projections ++ Proj.fieldP fl :: rest ∧
        ∀ q ∈ rest, ∃ nm, q = Proj.fieldP nm) ∧
      typ = F.pathType f pre ∧ (F.mutexesPerStruct typ).isSome = true := by
  intro n
  induction n with
  | zero => intro p typ pre fl h; rw [walkAux] at h; cases h
  | succ n ih =>
    intro p typ pre fl h
    rw [walkAux] at h
    cases hpop : p.popLast with
    | none => rw [hpop] at h; cases h
    | some pr =>
      rw [hpop] at h
      obtain ⟨q, p'⟩ := pr
      cases q with
      | indexP i => cases h
      | fieldP fl0 =>
        obtain ⟨hb, hproj⟩ := popLast_eq hpop
        have h' : (if (F.mutexesPerStruct (F.pathType f p')).isSome = true
            then some (F.pathType f p', p', fl0)
            else walkAux F f n p') = some (typ, pre, fl) := h
        by_cases htyp : (F.mutexesPerStruct (F.pathType f p')).isSome = true
        · rw [if_pos htyp] at h'
          rw [Option.some.injEq, Prod.mk.injEq, Prod.mk.injEq] at h'
          obtain ⟨h1, h2, h3⟩ := h'
          subst h1
          subst h2
          subst h3
          exact ⟨hb, ⟨[], by simpa using hproj, by simp⟩, rfl, htyp⟩
        · rw [if_neg htyp] at h'
          obtain ⟨hb', ⟨rest, hpr, hall⟩, hty, hsome⟩ := ih p' typ pre fl h'
          refine ⟨hb'.trans hb, ⟨rest ++ [Proj.fieldP fl0], ?_, ?_⟩,
            hty, hsome⟩
          · rw [hproj, hpr]
            simp
          · intro q hq
            rcases List.mem_append.1 hq with hq' | hq'
            · exact hall q hq'
            · refine ⟨fl0, ?_⟩
              simpa using hq'

theorem structWalk_some_shape {F : Facts} {f : ℕ} {p : ExprPath}
    {typ : String} {pre : ExprPath} {fl : String}
    (h : structWalk F f p = some (typ, pre, fl)) :
    pre.base = p.base ∧
    (∃ rest, p.projections = pre.projections ++ Proj.fieldP fl :: rest ∧
      ∀ q ∈ rest, ∃ nm, q = Proj.fieldP nm) ∧
    typ = F.pathType f pre ∧ (F.mutexesPerStruct typ).isSome = true :=
  walkAux_some_shape F f _ p typ pre fl h

theorem processGlobalGroup_some {tf : List ℕ} {uord : List ExprPath}
    {p : ExprPath} {accs0 : List (ℕ × Finset ℕ × Bool)}
    {flag : Bool} {k g : String}
    (h : processGlobalGroup tf uord p accs0 = some (flag, k, g)) :
    k = p.base ∧
    ∃ m, g = m.base ∧ m ∈ groupSurvivors tf uord accs0 ∧
      (flag = true → ∃ j, p.projections.head? = some (Proj.indexP j) ∧
        m.projections.head? = some (Proj.indexP j)) ∧
      (flag = false → m.is_variable = true) := by
  simp only [processGlobalGroup] at h
  split_ifs at h with h1 h2 h3
  cases hh : p.projections.head? with
  | none =>
    rw [hh] at h
    obtain ⟨m, hpick, heq⟩ := Option.map_eq_some'.1 h
    rw [Prod.mk.injEq, Prod.mk.injEq] at heq
    obtain ⟨hf, hk, hg⟩ := heq
    subst hf
    subst hk
    subst hg
    obtain ⟨hmem, hvar⟩ := scalarPick_mem hpick
    exact ⟨rfl, m, rfl, hmem, fun ht => absurd ht (by simp), fun _ => hvar⟩
  | some pr =>
    cases pr with
    | fieldP f0 =>
      rw [hh] at h
      obtain ⟨m, hpick, heq⟩ := Option.map_eq_some'.1 h
      rw [Prod.mk.injEq, Prod.mk.injEq] at heq
      obtain ⟨hf, hk, hg⟩ := heq
      subst hf
      subst hk
      subst hg
      obtain ⟨hmem, hvar⟩ := scalarPick_mem hpick
      exact ⟨rfl, m, rfl, hmem, fun ht => absurd ht (by simp), fun _ => hvar⟩
    | indexP i =>
      rw [hh] at h
      obtain ⟨m, hpick, heq⟩ := Option.map_eq_some'.1 h
      rw [Prod.mk.injEq, Prod.mk.injEq] at heq
      obtain ⟨hf, hk, hg⟩ := heq
      subst hf
      subst hk
      subst hg
      obtain ⟨hmem, hidx⟩ := arrayPick_mem hpick
      exact ⟨rfl, m, rfl, hmem, fun _ => ⟨i, rfl, hidx⟩,
        fun ht => absurd ht (by simp)⟩

theorem groupSurvivors_held {tf : List ℕ} {uord : List ExprPath}
    {accs0 : List (ℕ × Finset ℕ × Bool)} {m : ExprPath}
    (hm : m ∈ groupSurvivors tf uord accs0) :
    ∃ i, uord.get? i = some m ∧
      ∀ a ∈ threadRetain tf (fun a => a.1) accs0, i ∈ a.2.1 := by
  rw [groupSurvivors] at hm
  obtain ⟨i, hi, hget⟩ := iv2mv_mem hm
  exact ⟨i, hget, fun a ha =>
    interFold_subset (List.mem_map.2 ⟨a, ha, rfl⟩) hi⟩

theorem processStructGroup_some {tf : List ℕ} {uord : List ExprPath}
    {accs0 : List (ℕ × ExprPath × Finset ℕ × Bool)} {mb : String}
    (h : processStructGroup tf uord accs0 = some mb) :
    ∃ msuf, mb = msuf.base ∧ msuf ∈ bucketSurvivors tf uord accs0 := by
  simp only [processStructGroup] at h
  split_ifs at h with h1 h2
  obtain ⟨m, hhead, heq⟩ := Option.map_eq_some'.1 h
  exact ⟨m, heq.symm, head?_mem' hhead⟩

theorem bucketSurvivors_held {tf : List ℕ} {uord : List ExprPath}
    {accs0 : List (ℕ × ExprPath × Finset ℕ × Bool)} {msuf : ExprPath}
    (hm : msuf ∈ bucketSurvivors tf uord accs0) :
    ∀ a ∈ threadRetain tf (fun a => a.1) accs0,
      ∃ i mx, i ∈ a.2.2.1 ∧ uord.get? i = some mx ∧
        ExprPath.stripPre mx a.2.1 = some msuf := by
  intro a ha
  rw [bucketSurvivors] at hm
  have hsuff := listInterFold_mem hm _ (List.mem_map.2 ⟨a, ha, rfl⟩)
  rw [suffixesOf, List.mem_dedup, List.mem_filterMap] at hsuff
  obtain ⟨mx, hmx, hstrip⟩ := hsuff
  obtain ⟨i, hi, hget⟩ := iv2mv_mem hmx
  exact ⟨i, mx, hi, hget, hstrip⟩

theorem structTagged_mem {F : Facts} {summaries : List (ℕ × FunctionSummary)}
    {key : String × String} {pay : ℕ × ExprPath × Finset ℕ × Bool}
    (h : (key, pay) ∈ structTagged F summaries) :
    ∃ p, (p, pay.1, pay.2.2.1, pay.2.2.2) ∈ collectStructAccesses summaries ∧
      structWalk F pay.1 p = some (key.1, pay.2.1, key.2) := by
  rw [structTagged, List.mem_filterMap] at h
  obtain ⟨t, ht, heq⟩ := h
  obtain ⟨p, f0, v0, w0⟩ := t
  obtain ⟨w1, hw, heq2⟩ := Option.map_eq_some'.1 heq
  obtain ⟨typ1, pre1, fl1⟩ := w1
  rw [Prod.mk.injEq] at heq2
  obtain ⟨hkey, hpay⟩ := heq2
  subst hkey
  subst hpay
  exact ⟨p, ht, hw⟩

theorem structTagged_of_access {F : Facts}
    {summaries : List (ℕ × FunctionSummary)} {f : ℕ} {s : FunctionSummary}
    {p : ExprPath} {v : Finset ℕ} {w : Bool} {typ : String} {pre : ExprPath}
    {fld : String}
    (hfs : (f, s) ∈ summaries) (hacc : (p, v, w) ∈ s.access)
    (hst : p.is_struct = true)
    (hwalk : structWalk F f p = some (typ, pre, fld)) :
    ((typ, fld), (f, pre, v ∪ s.propagation_mutex, w)) ∈
      structTagged F summaries := by
  rw [structTagged, List.mem_filterMap]
  refine ⟨(p, f, v ∪ s.propagation_mutex, w), ?_, ?_⟩
  · rw [collectStructAccesses, List.mem_flatMap]
    exact ⟨(f, s), hfs,
      List.mem_filterMap.2 ⟨(p, v, w), hacc, by simp [hst]⟩⟩
  · simp [hwalk]

theorem mem_collectGlobal {summaries : List (ℕ × FunctionSummary)} {f : ℕ}
    {s : FunctionSummary} {p : ExprPath} {v : Finset ℕ} {w : Bool}
    (hfs : (f, s) ∈ summaries) (hacc : (p, v, w) ∈ s.access)
    (hns : p.is_struct = false) :
    (p, (f, v ∪ s.propagation_mutex, w)) ∈
      collectGlobalAccesses summaries := by
  rw [collectGlobalAccesses, List.mem_flatMap]
  exact ⟨(f, s), hfs,
    List.mem_filterMap.2 ⟨(p, v, w), hacc, by simp [hns]⟩⟩

/-- C1: every datum → guard binding emitted in the three output maps is
backed by a mutex held at every surviving access to that datum: at every
write access to the datum recorded in any thread-reachable procedure's
summary, the held set augmented with the procedure's `propagation_mutex`
contains the emitted guard (for struct data, a held mutex stripping to the
emitted suffix). -/
theorem claim1_guard_held_at_writes (F : Facts) (uord : List ExprPath)
    (summaries : List (ℕ × FunctionSummary)) :
    (∀ k g, ((k, g) ∈ (classifyStage F uord summaries).mutex_map ∨
        (k, g) ∈ (classifyStage F uord summaries).array_mutex_map) →
      ∃ d m i, ExprPath.base d = k ∧ g = ExprPath.base m ∧
        uord.get? i = some m ∧
        ∀ f s v w, (f, s) ∈ summaries → (d, v, w) ∈ s.access →
          d.is_struct = false → w = true →
          (F.thread_functions = [] ∨ f ∈ F.thread_functions) →
          i ∈ v ∪ s.propagation_mutex) ∧
    (∀ typ inner fld mb,
      (typ, inner) ∈ (classifyStage F uord summaries).struct_mutex_map →
      (fld, mb) ∈ inner →
      ∃ msuf, mb = ExprPath.base msuf ∧
        ∀ f s p v w pre, (f, s) ∈ summaries → (p, v, w) ∈ s.access →
          p.is_struct = true → structWalk F f p = some (typ, pre, fld) →
          w = true →
          (F.thread_functions = [] ∨ f ∈ F.thread_functions) →
          ∃ i mx, i ∈ v ∪ s.propagation_mutex ∧ uord.get? i = some mx ∧
            ExprPath.stripPre mx pre = some msuf) := by
  constructor
  · intro k g hkg
    have hem : ∃ flag, (flag, k, g) ∈
        (groupByKey (collectGlobalAccesses summaries)).filterMap
          (fun pr =>
            processGlobalGroup F.thread_functions uord pr.1 pr.2) := by
      rcases hkg with h | h
      · have h' : (k, g) ∈
            ((groupByKey (collectGlobalAccesses summaries)).filterMap
              (fun pr =>
                processGlobalGroup F.thread_functions uord pr.1 pr.2)).foldl
              (fun acc e =>
                if e.1 = false then bInsert acc e.2.1 e.2.2 else acc) [] := h
        rcases foldl_emit_mem false _ [] k g h' with hc | hc
        · simp at hc
        · exact ⟨false, hc⟩
      · have h' : (k, g) ∈
            ((groupByKey (collectGlobalAccesses summaries)).filterMap
              (fun pr =>
                processGlobalGroup F.thread_functions uord pr.1 pr.2)).foldl
              (fun acc e =>
                if e.1 = true then bInsert acc e.2.1 e.2.2 else acc) [] := h
        rcases foldl_emit_mem true _ [] k g h' with hc | hc
        · simp at hc
        · exact ⟨true, hc⟩
    obtain ⟨flag, hem⟩ := hem
    rw [List.mem_filterMap] at hem
    obtain ⟨⟨p, accs⟩, hgrp, hproc⟩ := hem
    obtain ⟨hk, m, hg, hms, _, _⟩ := processGlobalGroup_some hproc
    obtain ⟨i, hget, hheld⟩ := groupSurvivors_held hms
    refine ⟨p, m, i, hk.symm, hg, hget, ?_⟩
    intro f s v w hfs hacc hns hw hkept
    have hcol := mem_collectGlobal hfs hacc hns
    have haccs : (f, v ∪ s.propagation_mutex, w) ∈ accs := by
      rw [groupByKey_mem hgrp]
      exact mem_group_of_mem hcol
    exact hheld _ (threadRetain_mem haccs hkept)
  · intro typ inner fld mb hti hfm
    have h' : (typ, inner) ∈
        (groupByKey (structTagged F summaries)).foldl
          (fun acc pr =>
            match processStructGroup F.thread_functions uord pr.2 with
            | some mb0 => bInsertN acc pr.1.1 pr.1.2 mb0
            | none => acc) [] := hti
    rcases foldl_structEmit_mem F.thread_functions uord _ [] typ inner fld mb
        h' hfm with ⟨inner0, h0, _⟩ | ⟨grp, hgrp, hkey, hproc⟩
    · simp at h0
    · obtain ⟨gkey, gaccs⟩ := grp
      simp only at hkey
      subst hkey
      obtain ⟨msuf, hmb, hsurv⟩ := processStructGroup_some hproc
      refine ⟨msuf, hmb, ?_⟩
      intro f s p v w pre hfs hacc hst hwalk hw hkept
      have htag := structTagged_of_access hfs hacc hst hwalk
      have haccs : (f, pre, v ∪ s.propagation_mutex, w) ∈ gaccs := by
        rw [groupByKey_mem hgrp]
        exact mem_group_of_mem htag
      exact bucketSurvivors_held hsurv _ (threadRetain_mem haccs hkept)

theorem claim1_guard_held_at_writes_witness :
    (("x", "m") ∈ (classifyStage wFacts [⟨"m", []⟩] wSummaries).mutex_map ∨
      ("x", "m") ∈
        (classifyStage wFacts [⟨"m", []⟩] wSummaries).array_mutex_map) ∧
    (∃ d m i, ExprPath.base d = "x" ∧ "m" = ExprPath.base m ∧
      ([⟨"m", []⟩] : List ExprPath).get? i = some m ∧
      ∀ f s v w, (f, s) ∈ wSummaries → (d, v, w) ∈ s.access →
        d.is_struct = false → w = true →
        (wFacts.thread_functions = [] ∨ f ∈ wFacts.thread_functions) →
        i ∈ v ∪ s.propagation_mutex) :=
  ⟨Or.inl (by decide),
    (claim1_guard_held_at_writes wFacts [⟨"m", []⟩] wSummaries).1 "x" "m"
      (Or.inl (by decide))⟩

theorem claim5_counterexample :
    ((check_crate_post paramGuardFacts paramGuardFacts.possible_mutexes).map
        AnalysisSummary.mutex_map = some [("x", "p")] ∧
      paramGuardFacts.possible_mutexes = [⟨"p", []⟩] ∧
      (paramGuardFacts.params 0).map Prod.fst = ["p"] ∧
      "p" ∉ paramGuardFacts.globs) ∧
    ((check_crate_post structGuardFacts
        structGuardFacts.possible_mutexes).map
        AnalysisSummary.struct_mutex_map =
          some [("S", [("data", "inner")])] ∧
      structGuardFacts.mutexesPerStruct "S" = some ["mu"] ∧
      "inner" ∉ (["mu"] : List String)) := by decide

/-- C5 (amended): the shape tie-break invariants.  Emitted scalar-global
guards are variable paths (projection-free, though possibly
parameter-relative, as `claim5_counterexample` shows); emitted array
guards share the datum's leading index expression; and an emitted struct
guard is the base of a commonly-held suffix for a struct type that has at
least one declared mutex-typed field (the emitted name itself is not
checked against the layout). -/
theorem claim5_shape_tiebreak (F : Facts) (uord : List ExprPath)
    (summaries : List (ℕ × FunctionSummary)) :
    (∀ k g, (k, g) ∈ (classifyStage F uord summaries).mutex_map →
      ∃ m, g = ExprPath.base m ∧ m.is_variable = true) ∧
    (∀ k g, (k, g) ∈ (classifyStage F uord summaries).array_mutex_map →
      ∃ d m j, ExprPath.base d = k ∧ g = ExprPath.base m ∧
        d.projections.head? = some (Proj.indexP j) ∧
        m.projections.head? = some (Proj.indexP j)) ∧
    (∀ typ inner fld mb,
      (typ, inner) ∈ (classifyStage F uord summaries).struct_mutex_map →
      (fld, mb) ∈ inner →
      (F.mutexesPerStruct typ).isSome = true ∧
        ∃ msuf, mb = ExprPath.base msuf) := by
  refine ⟨?_, ?_, ?_⟩
  · intro k g h
    have h' : (k, g) ∈
        ((groupByKey (collectGlobalAccesses summaries)).filterMap
          (fun pr =>
            processGlobalGroup F.thread_functions uord pr.1 pr.2)).foldl
          (fun acc e =>
            if e.1 = false then bInsert acc e.2.1 e.2.2 else acc) [] := h
    rcases foldl_emit_mem false _ [] k g h' with hc | hc
    · simp at hc
    · rw [List.mem_filterMap] at hc
      obtain ⟨⟨p, accs⟩, _, hproc⟩ := hc
      obtain ⟨_, m, hg, _, _, hvar⟩ := processGlobalGroup_some hproc
      exact ⟨m, hg, hvar rfl⟩
  · intro k g h
    have h' : (k, g) ∈
        ((groupByKey (collectGlobalAccesses summaries)).filterMap
          (fun pr =>
            processGlobalGroup F.thread_functions uord pr.1 pr.2)).foldl
          (fun acc e =>
            if e.1 = true then bInsert acc e.2.1 e.2.2 else acc) [] := h
    rcases foldl_emit_mem true _ [] k g h' with hc | hc
    · simp at hc
    · rw [List.mem_filterMap] at hc
      obtain ⟨⟨p, accs⟩, _, hproc⟩ := hc
      obtain ⟨hk, m, hg, _, hidx, _⟩ := processGlobalGroup_some hproc
      obtain ⟨j, hpj, hmj⟩ := hidx rfl
      exact ⟨p, m, j, hk.symm, hg, hpj, hmj⟩
  · intro typ inner fld mb hti hfm
    have h' : (typ, inner) ∈
        (groupByKey (structTagged F summaries)).foldl
          (fun acc pr =>
            match processStructGroup F.thread_functions uord pr.2 with
            | some mb0 => bInsertN acc pr.1.1 pr.1.2 mb0
            | none => acc) [] := hti
    rcases foldl_structEmit_mem F.thread_functions uord _ [] typ inner fld mb
        h' hfm with ⟨inner0, h0, _⟩ | ⟨grp, hgrp, hkey, hproc⟩
    · simp at h0
    · obtain ⟨gkey, gaccs⟩ := grp
      simp only at hkey
      subst hkey
      obtain ⟨msuf, hmb, _⟩ := processStructGroup_some hproc
      obtain ⟨pay, hpay⟩ := groupByKey_key_mem hgrp
      obtain ⟨p, _, hwalk⟩ := structTagged_mem hpay
      obtain ⟨_, _, _, hsome⟩ := structWalk_some_shape hwalk
      exact ⟨hsome, msuf, hmb⟩

theorem claim5_shape_tiebreak_witness :
    ("x", "m") ∈ (classifyStage wFacts [⟨"m", []⟩] wSummaries).mutex_map ∧
    (∃ m, "m" = ExprPath.base m ∧ ExprPath.is_variable m = true) :=
  ⟨by decide,
    (claim5_shape_tiebreak wFacts [⟨"m", []⟩] wSummaries).1 "x" "m"
      (by decide)⟩

theorem claim8_counterexample :
    tieFacts.possible_mutexes.Perm [⟨"a", []⟩, ⟨"b", []⟩] ∧
    tieFacts.possible_mutexes.Perm [⟨"b", []⟩, ⟨"a", []⟩] ∧
    (check_crate_post tieFacts [⟨"a", []⟩, ⟨"b", []⟩]).map
      AnalysisSummary.mutex_map = some [("x", "b")] ∧
    (check_crate_post tieFacts [⟨"b", []⟩, ⟨"a", []⟩]).map
      AnalysisSummary.mutex_map = some [("x", "a")] ∧
    check_crate_post tieFacts [⟨"a", []⟩, ⟨"b", []⟩] ≠
      check_crate_post tieFacts [⟨"b", []⟩, ⟨"a", []⟩] := by decide

/-- C8 (amended): for a fixed universe enumeration the engine is a pure
function of its input, and whenever at most one variable candidate guard
survives a scalar tie-break, the pick is independent of the enumeration
order; with several surviving candidates, different (hash-dependent)
enumeration orders can produce different output maps, as
`claim8_counterexample` shows. -/
theorem claim8_pick_deterministic (l₁ l₂ : List ExprPath)
    (hperm : l₁.Perm l₂)
    (huniq : ∀ m ∈ l₁, ∀ m' ∈ l₁, m.is_variable = true →
      ExprPath.is_variable m' = true → m = m') :
    scalarPick l₁ = scalarPick l₂ := by
  have hp := hperm.filter (fun m => m.is_variable)
  rw [scalarPick, scalarPick]
  cases hl : (l₁.filter fun m => m.is_variable).getLast? with
  | none =>
    rw [List.getLast?_eq_none_iff] at hl
    rw [hl] at hp
    rw [hp.symm.eq_nil]
    rfl
  | some x =>
    have hx := getLast?_mem' hl
    have h2ne : l₂.filter (fun m => m.is_variable) ≠ [] := by
      intro hnil
      rw [hnil] at hp
      rw [hp.eq_nil] at hl
      simp at hl
    rw [List.getLast?_eq_getLast_of_ne_nil h2ne]
    have hym := List.getLast_mem h2ne
    rw [List.mem_filter] at hx hym
    have hy1 : (l₂.filter fun m => m.is_variable).getLast h2ne ∈ l₁ :=
      (hperm.mem_iff).2 hym.1
    rw [huniq x hx.1 _ hy1 hx.2 hym.2]

theorem claim8_pick_deterministic_witness :
    ([⟨"a", []⟩, ⟨"c", [Proj.fieldP "z"]⟩] : List ExprPath).Perm
      [⟨"c", [Proj.fieldP "z"]⟩, ⟨"a", []⟩] ∧
    (∀ m ∈ ([⟨"a", []⟩, ⟨"c", [Proj.fieldP "z"]⟩] : List ExprPath),
      ∀ m' ∈ ([⟨"a", []⟩, ⟨"c", [Proj.fieldP "z"]⟩] : List ExprPath),
      m.is_variable = true → ExprPath.is_variable m' = true → m = m') ∧
    scalarPick [⟨"a", []⟩, ⟨"c", [Proj.fieldP "z"]⟩] =
      scalarPick [⟨"c", [Proj.fieldP "z"]⟩, ⟨"a", []⟩] :=
  ⟨by decide, by decide,
    claim8_pick_deterministic _ _ (by decide) (by decide)⟩

theorem claim10_counterexample :
    (check_crate_post arrayStructFacts arrayStructFacts.possible_mutexes).map
      AnalysisSummary.struct_mutex_map = some [("S", [("f", "mu")])] ∧
    structWalk arrayStructFacts 0
      ⟨"arr", [Proj.indexP "i", Proj.fieldP "f"]⟩ =
      some ("S", ⟨"arr", [Proj.indexP "i"]⟩, "f") ∧
    (⟨"arr", [Proj.indexP "i", Proj.fieldP "f"]⟩ :
      ExprPath).projections.head? = some (Proj.indexP "i") := by decide

/-- C10 (amended): whenever the struct classifier's upward walk succeeds,
every projection it popped is a named field — so an access on which an
index projection is popped before a mutex-carrying prefix is found is
silently discarded and contributes to no (struct type, field) bucket —
and every bucket entry stems from an access whose walk succeeded.  A field
of an array-of-structs element whose own element type carries a mutex
field is, however, still bucketed (the walk stops before popping the
index), as `claim10_counterexample` shows. -/
theorem claim10_index_pop_discards :
    (∀ (F : Facts) (f : ℕ) (p : ExprPath) (typ : String) (pre : ExprPath)
      (fl : String), structWalk F f p = some (typ, pre, fl) →
      pre.base = p.base ∧
      (∃ rest, p.projections = pre.projections ++ Proj.fieldP fl :: rest ∧
        ∀ q ∈ rest, ∃ nm, q = Proj.fieldP nm) ∧
      typ = F.pathType f pre ∧ (F.mutexesPerStruct typ).isSome = true) ∧
    (∀ (F : Facts) (summaries : List (ℕ × FunctionSummary))
      (key : String × String) (pay : ℕ × ExprPath × Finset ℕ × Bool),
      (key, pay) ∈ structTagged F summaries →
      ∃ p, (p, pay.1, pay.2.2.1, pay.2.2.2) ∈
          collectStructAccesses summaries ∧
        structWalk F pay.1 p = some (key.1, pay.2.1, key.2)) :=
  ⟨fun _ _ _ _ _ _ h => structWalk_some_shape h,
    fun _ _ _ _ h => structTagged_mem h⟩

theorem claim10_index_pop_discards_witness :
    structWalk arrayStructFacts 0
      ⟨"s", [Proj.fieldP "inner", Proj.fieldP "f"]⟩ =
      structWalk arrayStructFacts 0
        ⟨"s", [Proj.fieldP "inner", Proj.fieldP "f"]⟩ ∧
    (structWalk arrayStructFacts 0
        ⟨"arr", [Proj.indexP "i", Proj.fieldP "f"]⟩ =
        some ("S", ⟨"arr", [Proj.indexP "i"]⟩, "f") ∧
      (ExprPath.base ⟨"arr", [Proj.indexP "i"]⟩ =
          ExprPath.base ⟨"arr", [Proj.indexP "i", Proj.fieldP "f"]⟩ ∧
        (∃ rest,
          (⟨"arr", [Proj.indexP "i", Proj.fieldP "f"]⟩ :
            ExprPath).projections =
            (⟨"arr", [Proj.indexP "i"]⟩ : ExprPath).projections ++
              Proj.fieldP "f" :: rest ∧
          ∀ q ∈ rest, ∃ nm, q = Proj.fieldP nm) ∧
        "S" = arrayStructFacts.pathType 0 ⟨"arr", [Proj.indexP "i"]⟩ ∧
        (arrayStructFacts.mutexesPerStruct "S").isSome = true)) :=
  ⟨rfl,
    by decide,
    claim10_index_pop_discards.1 arrayStructFacts 0
      ⟨"arr", [Proj.indexP "i", Proj.fieldP "f"]⟩ "S"
      ⟨"arr", [Proj.indexP "i"]⟩ "f" (by decide)⟩

theorem claim9_assignment_double_record_witness :
    (SubExpr (HExpr.assignE 1 (HExpr.pathE 0 ⟨"x", []⟩) (HExpr.pathE 2 ⟨"y", []⟩))
        (HExpr.assignE 1 (HExpr.pathE 0 ⟨"x", []⟩) (HExpr.pathE 2 ⟨"y", []⟩)) ∧
      exprToPath (HExpr.pathE 0 ⟨"x", []⟩) = some ⟨"x", []⟩ ∧
      recordCond ["x"] ⟨"x", []⟩ = true) ∧
    ((0, (⟨"x", []⟩ : ExprPath), false) ∈
        collectAccesses ["x"]
          (HExpr.assignE 1 (HExpr.pathE 0 ⟨"x", []⟩) (HExpr.pathE 2 ⟨"y", []⟩)) ∧
      (0, (⟨"x", []⟩ : ExprPath), true) ∈
        collectAccesses ["x"]
          (HExpr.assignE 1 (HExpr.pathE 0 ⟨"x", []⟩) (HExpr.pathE 2 ⟨"y", []⟩))) :=
  ⟨⟨SubExpr.refl _, rfl, by decide⟩,
    claim9_assignment_double_record ["x"] _ 1 _ _ ⟨"x", []⟩ (SubExpr.refl _)
      rfl (by decide)⟩

end CMRM
